import Mathlib

/-!
Verification of the logmap template-learning engine (`src/logmap.rs`).

The Rust struct `LogFilters` is embedded shallowly: the `HashMap<String, Vec<usize>>`
reverse index becomes an association list (an absent key is observationally the same
as a key with an empty bucket, since the code only ever reads buckets through
`get`/`contains` and never stores an empty bucket), `isize` values become `Int`,
`usize` values become `Nat`.  Every spot where the Rust code can panic
(unchecked `Vec` indexing) is modelled by an `Option`: `none` is a panic, which in
the original program aborts the process, so no post-panic state is observable.
All other functions are total exactly as in the source, whose remaining indexing
is guarded.
-/

namespace Logmap

/-- Embedding of `struct LogFilters`. -/
structure LogFilters where
  filters : List (List (List String))
  words_hash : List (String × List Nat)
  max_allowed_new_alternatives : Nat
  denote_optional : String
  ignore_numeric_words : Bool
  ignore_first_columns : Nat
deriving DecidableEq, Repr

/-- `LogFilters::new()`. -/
def LogFilters.new : LogFilters :=
  { filters := []
    words_hash := []
    max_allowed_new_alternatives := 0
    denote_optional := "."
    ignore_numeric_words := true
    ignore_first_columns := 2 }

/-- Bucket lookup in the association-list model of the reverse index
(`self.words_hash.get(word)`, with an absent key read as the empty bucket). -/
def hashGet (h : List (String × List Nat)) (w : String) : List Nat :=
  match h.find? (fun p => decide (p.1 = w)) with
  | some p => p.2
  | none => []

/-- Replace the bucket of an existing key in place. -/
def hashSet : List (String × List Nat) → String → List Nat → List (String × List Nat)
  | [], w, b => [(w, b)]
  | p :: rest, w, b => if p.1 = w then (w, b) :: rest else p :: hashSet rest w b

/-- The delimiter set of `LogFilters::line_split`. -/
def isSplitChar (c : Char) : Bool :=
  c = ' ' || c = '/' || c = ',' || c = '.' || c = ':' || c = '"' || c = '\'' ||
  c = '(' || c = ')' || c = '{' || c = '}' || c = '[' || c = ']'

/-- Splitting of a character list at delimiters, keeping empty pieces,
mirroring Rust's `str::split`. -/
def splitChars (p : Char → Bool) : List Char → List (List Char)
  | [] => [[]]
  | c :: rest =>
    if p c then [] :: splitChars p rest
    else
      match splitChars p rest with
      | [] => [[c]]
      | g :: gs => (c :: g) :: gs

/-- `LogFilters::line_split`: split on the delimiter set and drop empty tokens. -/
def line_split (s : String) : List String :=
  ((splitChars isSplitChar s.toList).map (fun l => l.asString)).filter
    (fun w => decide (w ≠ ""))

/-- `LogFilters::is_word_only_numeric`. -/
def is_word_only_numeric (w : String) : Bool :=
  w.toList.all (fun c => c = '*' || c = '#' || c.isDigit)

/-- The token loop of `LogFilters::line_to_words`: numeric words are dropped
first (without consuming a skip slot), then the first `ignoreFirst` surviving
words are dropped. -/
def lineToWordsGo (ignoreNum : Bool) (ignoreFirst : Nat) : List String → Nat → List String
  | [], _ => []
  | w :: rest, i =>
    if ignoreNum && is_word_only_numeric w then lineToWordsGo ignoreNum ignoreFirst rest i
    else if i < ignoreFirst then lineToWordsGo ignoreNum ignoreFirst rest (i + 1)
    else w :: lineToWordsGo ignoreNum ignoreFirst rest i

/-- `LogFilters::line_to_words`. -/
def line_to_words (lf : LogFilters) (log_line : String) : List String :=
  lineToWordsGo lf.ignore_numeric_words lf.ignore_first_columns (line_split log_line) 0

/-- `LogFilters::is_word_in_filter`. -/
def is_word_in_filter (lf : LogFilters) (word : String) (fi : Nat) : Bool :=
  match lf.filters[fi]? with
  | none => false
  | some f => f.any (fun col => decide (word ∈ col))

/-- `LogFilters::update_hash`: register `fi` in the bucket of `word`, provided the
word really occurs in that filter; a fresh key gets the one-element bucket, an
existing bucket gets the index pushed and re-sorted if not already present. -/
def update_hash (lf : LogFilters) (word : String) (fi : Nat) : LogFilters :=
  if is_word_in_filter lf word fi then
    match lf.words_hash.find? (fun p => decide (p.1 = word)) with
    | none => { lf with words_hash := lf.words_hash ++ [(word, [fi])] }
    | some p =>
      if fi ∈ p.2 then lf
      else { lf with words_hash := hashSet lf.words_hash word (List.insertionSort (· ≤ ·) (p.2 ++ [fi])) }
  else lf

/-- `LogFilters::add_filter`. -/
def add_filter (lf : LogFilters) (words : List String) : LogFilters :=
  let expected := lf.filters.length
  let new_filter := (words.filter (fun w => decide (w ≠ ""))).map (fun w => [w])
  if new_filter = [] then lf
  else
    new_filter.foldl (fun acc col => update_hash acc (col.headD "") expected)
      { lf with filters := lf.filters ++ [new_filter] }

/-- Scan of a column suffix for the first column containing `word`, carrying
the index of the current column. -/
def findColGo (word : String) : List (List String) → Nat → Int
  | [], _ => -1
  | col :: rest, c => if word ∈ col then (c : Int) else findColGo word rest (c + 1)

/-- First column index `≥ start` whose alternatives contain `word`
(the scan of `get_word_index_in_filter`), or `-1`. -/
def findColFrom (cols : List (List String)) (word : String) (start : Nat) : Int :=
  findColGo word (cols.drop start) start

/-- `LogFilters::get_word_index_in_filter`. -/
def get_word_index_in_filter (lf : LogFilters) (word : String) (fi : Nat)
    (start_from_word : Nat) : Int :=
  if word = "" then -1
  else if fi ∉ hashGet lf.words_hash word then -1
  else
    match lf.filters[fi]? with
    | none => -1
    | some f =>
      if f = [] ∨ f.length - 1 < start_from_word then -1
      else findColFrom f word start_from_word

/-- The word scan of `count_consequent_matches`, carrying the last matched
column, the running match counter, its maximum and the new-alternative
counter; exceeding the budget aborts with 0. -/
def ccmGo (lf : LogFilters) (fi : Nat) (budget : Nat) :
    List String → Int → Nat → Nat → Nat → Nat
  | [], _, _, maxc, _ => maxc
  | w :: rest, last, conseq, maxc, alts =>
    let mi := get_word_index_in_filter lf w fi (last + 1).toNat
    if mi ≥ 0 ∧ mi > last then
      let conseq' := conseq + 1
      let maxc' := if conseq' > maxc then conseq' else maxc
      ccmGo lf fi budget rest mi conseq' maxc' alts
    else if alts + 1 > budget then 0
    else ccmGo lf fi budget rest last conseq maxc (alts + 1)

/-- `LogFilters::count_consequent_matches`. -/
def count_consequent_matches (lf : LogFilters) (words : List String) (fi : Nat) : Nat :=
  if lf.filters.length ≤ fi ∨ words = [] then 0
  else
    let filter_length := (lf.filters[fi]?.getD []).length
    let extra := if filter_length < words.length then words.length - filter_length else 0
    ccmGo lf fi (lf.max_allowed_new_alternatives + extra) words (-1) 0 0 0

/-- `LogFilters::get_sorted_filter_indexes_containing_words`: concatenate all
buckets of the given words and sort ascending (duplicates are occurrence
counts). -/
def get_sorted_filter_indexes_containing_words (lf : LogFilters)
    (words : List String) : List Nat :=
  List.insertionSort (· ≤ ·) (words.foldl (fun acc w => acc ++ hashGet lf.words_hash w) [])

/-- Number of columns of a filter containing the optional marker. -/
def countOptionalAlternatives (lf : LogFilters) (f : List (List String)) : Nat :=
  f.countP (fun col => decide (lf.denote_optional ∈ col))

/-- The scan of `get_filter_indexes_with_min_req_matches` over the sorted
occurrence list: state is (running matches, optional count of the current
block's filter, previous id, last emitted id, accumulated output).  Accessing
a filter out of range is the panic of `self.filters[filter_index]`. -/
def selGo (lf : LogFilters) (n : Nat) :
    List Nat → Nat → Nat → Int → Int → List Nat → Option (List Nat)
  | [], _, _, _, _, acc => some acc
  | fi :: rest, mcount, optalts, prev, lastIns, acc =>
    if (fi : Int) = lastIns then selGo lf n rest mcount optalts prev lastIns acc
    else
      match lf.filters[fi]? with
      | none => none
      | some f =>
        let st := if prev ≠ (fi : Int) then (1, countOptionalAlternatives lf f)
                  else (mcount + 1, optalts)
        if (st.1 : Int) ≥ (n : Int) - (lf.max_allowed_new_alternatives : Int) ∧
            (st.1 : Int) ≥ (f.length : Int) - (lf.max_allowed_new_alternatives : Int) - (st.2 : Int) then
          selGo lf n rest 0 st.2 (fi : Int) (fi : Int) (acc ++ [fi])
        else
          selGo lf n rest st.1 st.2 (fi : Int) lastIns acc

/-- `LogFilters::get_filter_indexes_with_min_req_matches` (the Candidate
Selector). -/
def get_filter_indexes_with_min_req_matches (lf : LogFilters)
    (words : List String) : Option (List Nat) :=
  selGo lf words.length (get_sorted_filter_indexes_containing_words lf words) 0 0 (-1) (-1) []

/-- The candidate fold of `find_best_matching_filter_index`, tracking the best
index so far, the maximal score and the list of later candidates tying it. -/
def fbGo (lf : LogFilters) (words : List String) :
    List Nat → Int → Nat → List Nat → Int × Nat × List Nat
  | [], best, maxc, ties => (best, maxc, ties)
  | fi :: rest, best, maxc, ties =>
    let c := count_consequent_matches lf words fi
    if c > maxc then fbGo lf words rest (fi : Int) c []
    else if c = maxc then fbGo lf words rest best maxc (ties ++ [fi])
    else fbGo lf words rest best maxc ties

/-- `LogFilters::find_best_matching_filter_index`.  The ambiguity diagnostic
(`eprintln!`) indexes `self.filters` with every tying candidate, so an invalid
tying index is a panic there. -/
def find_best_matching_filter_index (lf : LogFilters) (words : List String) : Option Int :=
  if lf.filters = [] ∨ words = [] then some (-1)
  else
    match get_filter_indexes_with_min_req_matches lf words with
    | none => none
    | some cands =>
      let r := fbGo lf words cands (-1) 0 []
      if (r.2.1 : Int) ≥ (words.length : Int) - (lf.max_allowed_new_alternatives : Int) then
        if r.2.2.length > 1 ∧ ¬ (∀ t ∈ r.2.2, t < lf.filters.length) then none
        else some r.1
      else some (-1)

/-- The word scan of `get_indexes_of_earliest_matching_word`: keep the pair
whose matched column index is smallest (first-encountered wins ties). -/
def earliestGo (lf : LogFilters) (fi : Nat) (searchStart : Nat) :
    List (Nat × String) → Int → Int → Int × Int
  | [], fmw, fmf => (fmw, fmf)
  | (wi, w) :: rest, fmw, fmf =>
    let mi := get_word_index_in_filter lf w fi searchStart
    if mi ≥ 0 ∧ (fmf = -1 ∨ mi < fmf) then earliestGo lf fi searchStart rest (wi : Int) mi
    else earliestGo lf fi searchStart rest fmw fmf

/-- `LogFilters::get_indexes_of_earliest_matching_word`. -/
def get_indexes_of_earliest_matching_word (lf : LogFilters) (words : List String)
    (fi : Nat) (ws fs : Nat) : Int × Int :=
  if (words.length : Int) - 1 < (ws : Int) ∨ lf.filters[fi]? = none then (-1, -1)
  else if ((lf.filters[fi]?.getD []).length : Int) - 1 < (fs : Int) then (-1, -1)
  else
    let filters_offset : Int := (fs : Int) - (ws : Int)
    earliestGo lf fi ((ws : Int) + filters_offset).toNat (words.enum.drop ws) (-1) (-1)

/-- Pointwise column rewriting with the column index, used for the two
in-place loops of `normalise_lengths_before_first_match`. -/
def mapIdxFrom (g : Nat → List String → List String) :
    Nat → List (List String) → List (List String)
  | _, [] => []
  | i, col :: rest => g i col :: mapIdxFrom g (i + 1) rest

/-- `LogFilters::normalise_lengths_before_first_match`.  The two `Option`
checks are the panics of `Vec::splice` with an out-of-range start and of
`words[word_index]`; both are in fact unreachable (the indices come from a
successful column search), which `normalise_some` below proves. -/
def normalise_lengths_before_first_match (lf : LogFilters) (words : List String)
    (fi : Nat) (ws fs : Nat) : Option (LogFilters × Int × Int) :=
  let r := get_indexes_of_earliest_matching_word lf words fi ws fs
  if r.1 < 0 ∨ r.2 < 0 then some (lf, -1, -1)
  else
    let fw := r.1
    let ff := r.2
    let filters_offset : Int := (fs : Int) - (ws : Int)
    match lf.filters[fi]? with
    | none => none
    | some f =>
      if fw + filters_offset > ff then
        let sliceWords := (words.drop ws).take (fw.toNat - ws)
        let front_words := sliceWords.map (fun w => [w, lf.denote_optional])
        if ff.toNat ≤ f.length then
          let f' := f.take ff.toNat ++ front_words ++ f.drop ff.toNat
          let lf1 := { lf with filters := lf.filters.set fi f' }
          some (sliceWords.foldl (fun acc w => update_hash acc w fi) lf1,
                fw, ff + (front_words.length : Int))
        else none
      else
        let boundary : Nat := ((fs : Int) + ff - fw - filters_offset).toNat
        let f1 := mapIdxFrom (fun c col =>
          if fs ≤ c ∧ c < boundary then
            (if lf.denote_optional ∈ col then col else col ++ [lf.denote_optional])
          else col) 0 f
        if ws + (ff.toNat - boundary) ≤ words.length then
          let f2 := mapIdxFrom (fun c col =>
            if boundary ≤ c ∧ c < ff.toNat then
              (let w := (words[ws + (c - boundary)]?).getD ""
               if w ∈ col then col else col ++ [w])
            else col) 0 f1
          let lf1 := { lf with filters := lf.filters.set fi f2 }
          some (((words.drop ws).take (fw.toNat - ws)).foldl
                  (fun acc w => update_hash acc w fi) lf1, fw, ff)
        else none

/-- The `while` loop of `update_filter`, with explicit fuel; `none` is either a
panic inside the body or fuel exhaustion (`updLoop_some` below shows the fuel
chosen by `update_filter` always suffices). -/
def updLoop (words : List String) (fi : Nat) :
    Nat → LogFilters → Int → Int → Option (LogFilters × Int × Int)
  | 0, _, _, _ => none
  | fuel + 1, s, i, j =>
    if i ≥ 0 ∧ j ≥ 0 ∧ (words.length : Int) > i then
      match normalise_lengths_before_first_match s words fi i.toNat j.toNat with
      | none => none
      | some (s', i', j') =>
        if i' = -1 ∨ j' = -1 then some (s', i, j)
        else if i' ≠ i ∨ j' ≠ j then updLoop words fi fuel s' i' j'
        else if i = (words.length : Int) - 1 then some (s', i, j)
        else
          match s'.filters[fi]? with
          | none => none
          | some f =>
            if j = (f.length : Int) - 1 then some (s', i, j)
            else updLoop words fi fuel s' (i + 1) (j + 1)
    else some (s, i, j)

/-- The trailing-words loop of `update_filter`: append each extra word as a new
optional column and register it. -/
def pushExtraWords (fi : Nat) : LogFilters → List String → LogFilters
  | lf, [] => lf
  | lf, w :: rest =>
    let f := lf.filters[fi]?.getD []
    pushExtraWords fi
      (update_hash { lf with filters := lf.filters.set fi (f ++ [[w, lf.denote_optional]]) } w fi)
      rest

/-- `LogFilters::update_filter` (the Merger). -/
def update_filter (lf : LogFilters) (words : List String) (fi : Nat) : Option LogFilters :=
  match normalise_lengths_before_first_match lf words fi 0 0 with
  | none => none
  | some (s1, i1, j1) =>
    let fuel := (words.length + 1) *
      ((s1.filters[fi]?.getD []).length + words.length + 2) + 1
    match updLoop words fi fuel s1 i1 j1 with
    | none => none
    | some (s2, i2, j2) =>
      if i2 ≥ 0 ∧ j2 ≥ 0 then
        match s2.filters[fi]? with
        | none => none
        | some f =>
          if words.length > f.length ∧ j2 = (f.length : Int) - 1 then
            some (pushExtraWords fi s2 (words.drop f.length))
          else if i2 < (words.length : Int) then
            let s3 := { s2 with filters := s2.filters.set fi f.reverse }
            match normalise_lengths_before_first_match s3 words.reverse fi 0 0 with
            | none => none
            | some (s4, _, _) =>
              some { s4 with filters := s4.filters.set fi ((s4.filters[fi]?.getD []).reverse) }
          else some s2
      else some s2

/-- `LogFilters::learn_line`. -/
def learn_line (lf : LogFilters) (log_line : String) : Option LogFilters :=
  let words := line_to_words lf log_line
  match find_best_matching_filter_index lf words with
  | none => none
  | some idx => if idx ≥ 0 then update_filter lf words idx.toNat else some (add_filter lf words)

/-- `LogFilters::is_line_known`. -/
def is_line_known (lf : LogFilters) (log_line : String) : Option Bool :=
  (find_best_matching_filter_index lf (line_to_words lf log_line)).map
    (fun r => decide (r ≠ -1))

/-! ## Specification-side definitions

These are written from the specification text, to be compared with the
embedded code. -/

/-- Scan of a column suffix for the first column containing `w` as an
alternative other than the optional marker. -/
def specColGo (marker w : String) : List (List String) → Nat → Option Nat
  | [], _ => none
  | col :: rest, c =>
    if w ∈ col ∧ w ≠ marker then some c else specColGo marker w rest (c + 1)

/-- Spec 4.2: search the template's columns starting at `c` for a column
containing `w` as an alternative, the optional marker being excluded from the
containment check. -/
def specFindColumn (marker : String) (cols : List (List String)) (w : String)
    (c : Nat) : Option Nat :=
  specColGo marker w (cols.drop c) c

/-- `-1`-for-`none` view of an optional column index, the shape in which the
code reports column searches. -/
def optColToInt : Option Nat → Int
  | some c => (c : Int)
  | none => -1

theorem optColToInt_some (c : Nat) : optColToInt (some c) = (c : Int) := rfl

theorem optColToInt_none : optColToInt none = -1 := rfl

/-- Spec 4.2: the greedy ordered position-increasing match count: each word is
looked up strictly after the last matched column; a found word advances the
matched column. -/
def specGreedyMatched (marker : String) (cols : List (List String)) :
    List String → Nat → Nat
  | [], _ => 0
  | w :: rest, c =>
    match specFindColumn marker cols w c with
    | some m => 1 + specGreedyMatched marker cols rest (m + 1)
    | none => specGreedyMatched marker cols rest c

/-- Spec 4.2, as a two-pass function: greedy match count, then the mismatch
budget check `new_alternatives > max_allowed_new_alternatives +
max(0, words.len() − template.column_count)` zeroing the score. -/
def specConsequentMatches (lf : LogFilters) (words : List String) (t : Nat) : Nat :=
  let f := lf.filters[t]?.getD []
  let m := specGreedyMatched lf.denote_optional f words 0
  let extra := words.length - f.length
  if words.length - m > lf.max_allowed_new_alternatives + extra then 0 else m

/-- Spec 4.1: a template id is a candidate exactly when its occurrence count in
the sorted concatenation of reverse-index buckets is positive and reaches both
`words.len() − max_allowed_new_alternatives` and
`column_count − max_allowed_new_alternatives − optional_column_count`;
the output is the ascending deduplicated list of such ids. -/
def specCandidates (lf : LogFilters) (words : List String) : List Nat :=
  let conc := get_sorted_filter_indexes_containing_words lf words
  let n := words.length
  let k := lf.max_allowed_new_alternatives
  (List.insertionSort (· ≤ ·) conc.dedup).filter (fun t =>
    let f := lf.filters[t]?.getD []
    let cnt := conc.count t
    decide ((cnt : Int) ≥ (n : Int) - (k : Int)) &&
    decide ((cnt : Int) ≥ (f.length : Int) - (k : Int) - (countOptionalAlternatives lf f : Int)))

/-- The selector's two-sided emission threshold at occurrence count `cnt` for
a template with columns `f` (spec 4.1): at least `words.len() −
max_allowed_new_alternatives` and at least `column_count −
max_allowed_new_alternatives − optional_column_count`, as signed integers. -/
def selThresh (lf : LogFilters) (n : Nat) (cnt : Nat) (f : List (List String)) : Prop :=
  ((cnt : Int) ≥ (n : Int) - (lf.max_allowed_new_alternatives : Int)) ∧
  ((cnt : Int) ≥ (f.length : Int) - (lf.max_allowed_new_alternatives : Int) -
    (countOptionalAlternatives lf f : Int))

instance (lf : LogFilters) (n cnt : Nat) (f : List (List String)) :
    Decidable (selThresh lf n cnt f) :=
  inferInstanceAs (Decidable (_ ∧ _))

/-- The maximum Sequence Matcher score over the Candidate Selector's output
(spec 4.1/4.2), the quantity the acceptance rule compares with
`words.len() − max_allowed_new_alternatives`. -/
def specMaxScore (lf : LogFilters) (words : List String) : Nat :=
  ((specCandidates lf words).map (specConsequentMatches lf words)).foldl max 0

/-! ## Well-formedness predicates -/

/-- Every reverse-index bucket mentions only existing template ids. -/
def BucketBounds (s : LogFilters) : Prop :=
  ∀ p ∈ s.words_hash, ∀ t ∈ p.2, t < s.filters.length

/-- Reverse-index soundness: a key is a real (non-empty) word, and every id in
its bucket is an existing template one of whose columns contains the key. -/
def BucketSound (s : LogFilters) : Prop :=
  ∀ p ∈ s.words_hash, p.1 ≠ "" ∧
    ∀ t ∈ p.2, ∃ f, s.filters[t]? = some f ∧ ∃ col ∈ f, p.1 ∈ col

/-- The reverse-index containment invariant of the specification: for a word
other than the optional marker, a bucket contains a template id iff some
column of that template contains the word; the optional marker has no bucket. -/
def ReverseIndexInv (s : LogFilters) : Prop :=
  (∀ w, w ≠ s.denote_optional →
    ∀ t, t ∈ hashGet s.words_hash w ↔
      ∃ f, s.filters[t]? = some f ∧ ∃ col ∈ f, w ∈ col) ∧
  hashGet s.words_hash s.denote_optional = []

/-- No column of any template contains the empty string. -/
def NoEmptyAlternative (s : LogFilters) : Prop :=
  ∀ (t : Nat) (f : List (List String)), s.filters[t]? = some f → ∀ col ∈ f, "" ∉ col

/-! ## Association-list reverse index: basic lemmas -/

theorem hashGet_nil (w : String) : hashGet [] w = [] := rfl

theorem hashGet_cons (p : String × List Nat) (h : List (String × List Nat)) (w : String) :
    hashGet (p :: h) w = if p.1 = w then p.2 else hashGet h w := by
  simp only [hashGet, List.find?_cons]
  by_cases hp : p.1 = w <;> simp [hp]

theorem mem_hashGet_exists {h : List (String × List Nat)} {w : String} {t : Nat}
    (ht : t ∈ hashGet h w) : ∃ p ∈ h, p.1 = w ∧ t ∈ p.2 := by
  induction h with
  | nil => simp [hashGet_nil] at ht
  | cons p rest ih =>
    rw [hashGet_cons] at ht
    by_cases hp : p.1 = w
    · rw [if_pos hp] at ht
      exact ⟨p, List.mem_cons_self _ _, hp, ht⟩
    · rw [if_neg hp] at ht
      obtain ⟨q, hq, hqw, hqt⟩ := ih ht
      exact ⟨q, List.mem_cons_of_mem _ hq, hqw, hqt⟩

theorem hashGet_hashSet (h : List (String × List Nat)) (w : String) (b : List Nat)
    (w' : String) : hashGet (hashSet h w b) w' = if w' = w then b else hashGet h w' := by
  induction h with
  | nil =>
    show hashGet [(w, b)] w' = _
    rw [hashGet_cons, hashGet_nil]
    by_cases hww : w' = w
    · rw [if_pos hww.symm, if_pos hww]
    · rw [if_neg (fun h => hww h.symm), if_neg hww]
  | cons p rest ih =>
    show hashGet (if p.1 = w then (w, b) :: rest else p :: hashSet rest w b) w' = _
    by_cases hp : p.1 = w
    · rw [if_pos hp, hashGet_cons, hashGet_cons]
      by_cases hww : w' = w
      · rw [if_pos hww.symm, if_pos hww]
      · rw [if_neg (fun h => hww h.symm), if_neg hww, if_neg (hp ▸ (fun h => hww h.symm))]
    · rw [if_neg hp, hashGet_cons, hashGet_cons, ih]
      by_cases hpw : p.1 = w'
      · have hww : w' ≠ w := fun h => hp (hpw.trans h)
        rw [if_pos hpw, if_neg hww, if_pos hpw]
      · rw [if_neg hpw]
        by_cases hww : w' = w
        · rw [if_pos hww, if_pos hww]
        · rw [if_neg hww, if_neg hww, if_neg hpw]

theorem update_hash_filters (lf : LogFilters) (w : String) (fi : Nat) :
    (update_hash lf w fi).filters = lf.filters := by
  unfold update_hash
  split
  · split <;> [rfl; split <;> rfl]
  · rfl

theorem update_hash_config (lf : LogFilters) (w : String) (fi : Nat) :
    (update_hash lf w fi).max_allowed_new_alternatives = lf.max_allowed_new_alternatives ∧
    (update_hash lf w fi).denote_optional = lf.denote_optional ∧
    (update_hash lf w fi).ignore_numeric_words = lf.ignore_numeric_words ∧
    (update_hash lf w fi).ignore_first_columns = lf.ignore_first_columns := by
  unfold update_hash
  split
  · split
    · exact ⟨rfl, rfl, rfl, rfl⟩
    · split <;> exact ⟨rfl, rfl, rfl, rfl⟩
  · exact ⟨rfl, rfl, rfl, rfl⟩

theorem hashGet_append_single_absent (h : List (String × List Nat)) (w : String)
    (b : List Nat) (hw : h.find? (fun p => decide (p.1 = w)) = none) (w' : String) :
    hashGet (h ++ [(w, b)]) w' = if w' = w then b else hashGet h w' := by
  induction h with
  | nil =>
    rw [List.nil_append, hashGet_cons, hashGet_nil]
    by_cases hww : w' = w
    · rw [if_pos hww.symm, if_pos hww]
    · rw [if_neg (fun h => hww h.symm), if_neg hww]
  | cons p rest ih =>
    rw [List.find?_cons] at hw
    by_cases hp : p.1 = w
    · simp [hp] at hw
    · rw [List.cons_append, hashGet_cons, hashGet_cons,
        ih (by simpa [hp] using hw)]
      by_cases hpw : p.1 = w'
      · have hww : w' ≠ w := fun h => hp (hpw.trans h)
        rw [if_pos hpw, if_neg hww, if_pos hpw]
      · rw [if_neg hpw]
        by_cases hww : w' = w
        · rw [if_pos hww, if_pos hww]
        · rw [if_neg hww, if_neg hww, if_neg hpw]

/-- Membership in a bucket after `update_hash`: the target word's bucket gains
exactly `fi` (when the word occurs in the filter), all other buckets are
untouched. -/
theorem mem_hashGet_update_hash (lf : LogFilters) (w : String) (fi : Nat)
    (w' : String) (t : Nat) :
    t ∈ hashGet (update_hash lf w fi).words_hash w' ↔
      t ∈ hashGet lf.words_hash w' ∨
        (w' = w ∧ t = fi ∧ is_word_in_filter lf w fi = true) := by
  by_cases hw : is_word_in_filter lf w fi
  · rcases hfind : lf.words_hash.find? (fun p => decide (p.1 = w)) with _ | p
    · unfold update_hash
      rw [if_pos hw, hfind]
      show t ∈ hashGet (lf.words_hash ++ [(w, [fi])]) w' ↔ _
      rw [hashGet_append_single_absent _ _ _ hfind]
      by_cases hww : w' = w
      · subst hww
        have hnil : hashGet lf.words_hash w' = [] := by
          unfold hashGet
          rw [hfind]
        simp [hnil, hw]
      · simp [hww]
    · have hpw : p.1 = w := by
        have := List.find?_some hfind
        simpa using this
      have hget : hashGet lf.words_hash w = p.2 := by
        unfold hashGet
        rw [hfind]
      unfold update_hash
      rw [if_pos hw, hfind]
      dsimp only
      by_cases hfi : fi ∈ p.2
      · rw [if_pos hfi]
        by_cases hww : w' = w
        · subst hww
          rw [hget]
          constructor
          · exact fun h => Or.inl h
          · rintro (h | ⟨_, rfl, _⟩) <;> [exact h; exact hfi]
        · simp [hww]
      · rw [if_neg hfi]
        show t ∈ hashGet (hashSet lf.words_hash w (List.insertionSort (· ≤ ·) (p.2 ++ [fi]))) w' ↔ _
        rw [hashGet_hashSet]
        by_cases hww : w' = w
        · subst hww
          rw [if_pos rfl, hget]
          simp [List.mem_insertionSort, hw]
        · simp [hww]
  · have hu : update_hash lf w fi = lf := by
      unfold update_hash
      rw [if_neg hw]
    rw [hu]
    simp [hw]

/-! ## Column search lemmas -/

theorem findColGo_cases (w : String) (l : List (List String)) (c : Nat) :
    findColGo w l c = -1 ∨
      ((c : Int) ≤ findColGo w l c ∧ findColGo w l c < (c : Int) + l.length) := by
  induction l generalizing c with
  | nil => exact Or.inl rfl
  | cons col rest ih =>
    simp only [findColGo]
    by_cases hc : w ∈ col
    · rw [if_pos hc]
      right
      refine ⟨le_refl _, ?_⟩
      simp only [List.length_cons]
      push_cast
      omega
    · rw [if_neg hc]
      rcases ih (c + 1) with h | ⟨h1, h2⟩
      · exact Or.inl h
      · right
        simp only [List.length_cons]
        push_cast at h1 h2 ⊢
        omega

theorem findColGo_eq_neg_iff (w : String) (l : List (List String)) (c : Nat) :
    findColGo w l c = -1 ↔ ∀ col ∈ l, w ∉ col := by
  induction l generalizing c with
  | nil => simp [findColGo]
  | cons col rest ih =>
    simp only [findColGo]
    by_cases hc : w ∈ col
    · rw [if_pos hc]
      constructor
      · intro h
        exfalso
        omega
      · intro h
        exact ((h col (List.mem_cons_self _ _)) hc).elim
    · rw [if_neg hc, ih (c + 1)]
      simp [hc]

theorem specColGo_eq_none_of (marker w : String) (l : List (List String)) (c : Nat)
    (h : ∀ col ∈ l, ¬(w ∈ col ∧ w ≠ marker)) : specColGo marker w l c = none := by
  induction l generalizing c with
  | nil => rfl
  | cons col rest ih =>
    simp only [specColGo]
    rw [if_neg (h col (List.mem_cons_self _ _))]
    exact ih (c + 1) (fun col' hc' => h col' (List.mem_cons_of_mem _ hc'))

theorem specColGo_marker (marker : String) (l : List (List String)) (c : Nat) :
    specColGo marker marker l c = none :=
  specColGo_eq_none_of marker marker l c (fun _ _ h => h.2 rfl)

/-- For a word other than the marker, the spec-side column search and the
code-side `findColGo` agree. -/
theorem specColGo_eq_findColGo (marker w : String) (hw : w ≠ marker)
    (l : List (List String)) (c : Nat) :
    specColGo marker w l c = (findColGo w l c).toNat' := by
  induction l generalizing c with
  | nil => rfl
  | cons col rest ih =>
    simp only [specColGo, findColGo]
    by_cases hc : w ∈ col
    · rw [if_pos ⟨hc, hw⟩, if_pos hc]
      rfl
    · rw [if_neg (fun h => hc h.1), if_neg hc]
      exact ih (c + 1)

theorem specColGo_some_ge {marker w : String} {l : List (List String)} {c m : Nat}
    (h : specColGo marker w l c = some m) : c ≤ m ∧ m < c + l.length := by
  induction l generalizing c with
  | nil => simp [specColGo] at h
  | cons col rest ih =>
    simp only [specColGo] at h
    by_cases hc : w ∈ col ∧ w ≠ marker
    · rw [if_pos hc] at h
      cases h
      refine ⟨le_refl _, ?_⟩
      simp
    · rw [if_neg hc] at h
      have := ih h
      refine ⟨by omega, ?_⟩
      simp only [List.length_cons]
      omega

theorem specFindColumn_some_ge {marker : String} {cols : List (List String)}
    {w : String} {c m : Nat} (h : specFindColumn marker cols w c = some m) :
    c ≤ m ∧ m < cols.length := by
  have := specColGo_some_ge h
  have hd : (cols.drop c).length = cols.length - c := List.length_drop c cols
  omega

/-- The key semantic bridge: under the reverse-index containment invariant
(and absence of empty alternatives), `get_word_index_in_filter` computes
exactly the specification's column search. -/
theorem get_word_index_eq_spec (lf : LogFilters) (hinv : ReverseIndexInv lf)
    (hne : NoEmptyAlternative lf) (word : String) (fi : Nat) (start : Nat) :
    get_word_index_in_filter lf word fi start =
      optColToInt (specFindColumn lf.denote_optional (lf.filters[fi]?.getD []) word start) := by
  unfold get_word_index_in_filter
  by_cases hempty : word = ""
  · rw [if_pos hempty]
    subst hempty
    have hnone : specFindColumn lf.denote_optional (lf.filters[fi]?.getD []) "" start
        = none := by
      apply specColGo_eq_none_of
      intro col hcol hmem
      rcases hf : lf.filters[fi]? with _ | f
      · rw [hf] at hcol
        simp at hcol
      · rw [hf] at hcol
        exact hne fi f hf col (List.mem_of_mem_drop hcol) hmem.1
    rw [hnone]
    rfl
  · rw [if_neg hempty]
    by_cases hmark : word = lf.denote_optional
    · have hb : hashGet lf.words_hash word = [] := by
        rw [hmark]
        exact hinv.2
      rw [if_pos (by rw [hb]; exact List.not_mem_nil _)]
      have hnone : specFindColumn lf.denote_optional (lf.filters[fi]?.getD []) word start
          = none :=
        specColGo_eq_none_of _ _ _ _ (fun _ _ h => h.2 hmark)
      rw [hnone]
      rfl
    · by_cases hfi : fi ∈ hashGet lf.words_hash word
      · rw [if_neg (fun hmem => hmem hfi)]
        obtain ⟨f, hf, col, hcol, hwcol⟩ := ((hinv.1 word hmark fi).1 hfi)
        rw [hf]
        simp only [Option.getD_some]
        have hfne : f ≠ [] := by
          intro h
          rw [h] at hcol
          exact List.not_mem_nil _ hcol
        by_cases hstart : f.length - 1 < start
        · rw [if_pos (Or.inr hstart)]
          have hlen : f.length ≤ start := by
            have : 0 < f.length := List.length_pos.mpr hfne
            omega
          have hnone : specFindColumn lf.denote_optional f word start = none := by
            unfold specFindColumn
            rw [List.drop_eq_nil_of_le hlen]
            rfl
          rw [hnone]
          rfl
        · rw [if_neg (by
            rintro (h | h)
            · exact hfne h
            · exact hstart h)]
          rw [specFindColumn, specColGo_eq_findColGo _ _ hmark, findColFrom]
          rcases findColGo_cases word (f.drop start) start with h | ⟨h1, _⟩
          · rw [h]
            rfl
          · have h0 : (0 : Int) ≤ findColGo word (f.drop start) start :=
              le_trans (by positivity) h1
            obtain ⟨n, hn⟩ := Int.eq_ofNat_of_zero_le h0
            rw [hn]
            rfl
      · rw [if_pos hfi]
        have hnone : specFindColumn lf.denote_optional (lf.filters[fi]?.getD []) word start
            = none := by
          apply specColGo_eq_none_of
          intro col hcol hmem
          rcases hf : lf.filters[fi]? with _ | f
          · rw [hf] at hcol
            simp at hcol
          · rw [hf] at hcol
            exact hfi ((hinv.1 word hmark fi).2
              ⟨f, hf, col, List.mem_of_mem_drop hcol, hmem.1⟩)
        rw [hnone]
        rfl

/-! ## Sequence matcher: the abort-style scan equals the two-pass specification -/

theorem specGreedyMatched_le (marker : String) (cols : List (List String))
    (ws : List String) (c : Nat) : specGreedyMatched marker cols ws c ≤ ws.length := by
  induction ws generalizing c with
  | nil => simp [specGreedyMatched]
  | cons w rest ih =>
    simp only [specGreedyMatched]
    rcases specFindColumn marker cols w c with _ | m
    · exact le_trans (ih c) (by simp)
    · have := ih (m + 1)
      simp only [List.length_cons]
      omega

theorem specGreedyMatched_nil_cols (marker : String) (ws : List String) (c : Nat) :
    specGreedyMatched marker [] ws c = 0 := by
  induction ws generalizing c with
  | nil => rfl
  | cons w rest ih =>
    simp only [specGreedyMatched]
    have : specFindColumn marker [] w c = none := by
      unfold specFindColumn
      rw [List.drop_nil]
      rfl
    rw [this]
    exact ih c

theorem ccmGo_eq_spec (lf : LogFilters) (hinv : ReverseIndexInv lf)
    (hne : NoEmptyAlternative lf) (fi : Nat) (budget : Nat) (ws : List String)
    (c conseq maxc alts : Nat) (halts : alts ≤ budget) (hcm : conseq ≤ maxc) :
    ccmGo lf fi budget ws ((c : Int) - 1) conseq maxc alts =
      if alts + (ws.length -
          specGreedyMatched lf.denote_optional (lf.filters[fi]?.getD []) ws c) > budget
      then 0
      else max maxc (conseq +
        specGreedyMatched lf.denote_optional (lf.filters[fi]?.getD []) ws c) := by
  induction ws generalizing c conseq maxc alts with
  | nil =>
    simp only [ccmGo, specGreedyMatched, List.length_nil]
    rw [if_neg (by omega)]
    omega
  | cons w rest ih =>
    have harg : (((c : Int) - 1) + 1).toNat = c := by omega
    simp only [ccmGo, harg, specGreedyMatched,
      get_word_index_eq_spec lf hinv hne w fi c, List.length_cons]
    rcases hs : specFindColumn lf.denote_optional (lf.filters[fi]?.getD []) w c
      with _ | m
    all_goals dsimp only
    · simp only [optColToInt_none]
      rw [if_neg (by omega)]
      have hm' := specGreedyMatched_le lf.denote_optional (lf.filters[fi]?.getD []) rest c
      by_cases hab : alts + 1 > budget
      · rw [if_pos hab, if_pos (by omega)]
      · rw [if_neg hab, ih c conseq maxc (alts + 1) (by omega) hcm]
        set g := specGreedyMatched lf.denote_optional (lf.filters[fi]?.getD []) rest c
        clear_value g
        by_cases h2 : alts + 1 + (rest.length - g) > budget
        · have hgoal : alts + (rest.length + 1 - g) > budget := by omega
          rw [if_pos h2, if_pos hgoal]
        · have hgoal : ¬ alts + (rest.length + 1 - g) > budget := by omega
          rw [if_neg h2, if_neg hgoal]
    · have hge := specFindColumn_some_ge hs
      simp only [optColToInt_some]
      rw [if_pos (by omega)]
      have hmi : ((m : Int)) = ((m + 1 : Nat) : Int) - 1 := by push_cast; omega
      have hmx : conseq + 1 ≤ (if conseq + 1 > maxc then conseq + 1 else maxc) := by
        split_ifs <;> omega
      rw [hmi, ih (m + 1) (conseq + 1)
        (if conseq + 1 > maxc then conseq + 1 else maxc) alts halts hmx]
      have hm' := specGreedyMatched_le lf.denote_optional (lf.filters[fi]?.getD []) rest (m + 1)
      set g := specGreedyMatched lf.denote_optional (lf.filters[fi]?.getD []) rest (m + 1)
      clear_value g
      by_cases h2 : alts + (rest.length - g) > budget
      · have hgoal : alts + (rest.length + 1 - (1 + g)) > budget := by omega
        rw [if_pos h2, if_pos hgoal]
      · have hgoal : ¬ alts + (rest.length + 1 - (1 + g)) > budget := by omega
        rw [if_neg h2, if_neg hgoal]
        simp only [Nat.max_def]
        split_ifs <;> omega

/-- `count_consequent_matches` equals the two-pass specification: greedy
ordered matching, then the mismatch-budget cut-off. -/
theorem count_consequent_matches_eq_spec (lf : LogFilters)
    (hinv : ReverseIndexInv lf) (hne : NoEmptyAlternative lf)
    (words : List String) (fi : Nat) :
    count_consequent_matches lf words fi = specConsequentMatches lf words fi := by
  unfold count_consequent_matches specConsequentMatches
  by_cases hg : lf.filters.length ≤ fi ∨ words = []
  · rw [if_pos hg]
    rcases hg with hg | hg
    · have hf : lf.filters[fi]? = none := by
        rw [List.getElem?_eq_none hg]
      rw [hf]
      simp only [Option.getD_none]
      rw [specGreedyMatched_nil_cols]
      simp
    · subst hg
      simp [specGreedyMatched]
  · rw [if_neg hg]
    push_neg at hg
    have hm := specGreedyMatched_le lf.denote_optional (lf.filters[fi]?.getD []) words 0
    show ccmGo lf fi (lf.max_allowed_new_alternatives +
        (if (lf.filters[fi]?.getD []).length < words.length then
          words.length - (lf.filters[fi]?.getD []).length else 0)) words (-1) 0 0 0 =
      (if words.length - specGreedyMatched lf.denote_optional
            (lf.filters[fi]?.getD []) words 0 >
          lf.max_allowed_new_alternatives +
            (words.length - (lf.filters[fi]?.getD []).length) then 0
       else specGreedyMatched lf.denote_optional (lf.filters[fi]?.getD []) words 0)
    have hextra : (if (lf.filters[fi]?.getD []).length < words.length then
        words.length - (lf.filters[fi]?.getD []).length else 0) =
        words.length - (lf.filters[fi]?.getD []).length := by
      split_ifs with h
      · rfl
      · omega
    rw [hextra]
    have h0 : ((-1 : Int)) = ((0 : Nat) : Int) - 1 := by norm_num
    rw [h0, ccmGo_eq_spec lf hinv hne fi _ words 0 0 0 0 (by omega) (by omega)]
    by_cases hc : 0 + (words.length -
        specGreedyMatched lf.denote_optional (lf.filters[fi]?.getD []) words 0) >
        lf.max_allowed_new_alternatives + (words.length - (lf.filters[fi]?.getD []).length)
    · rw [if_pos hc, if_pos (by omega)]
    · rw [if_neg hc, if_neg (by omega)]
      omega

/-! ## Structural lemmas about the merger -/

theorem foldl_update_hash_filters (L : List String) (fi : Nat) (s : LogFilters) :
    (L.foldl (fun acc w => update_hash acc w fi) s).filters = s.filters := by
  induction L generalizing s with
  | nil => rfl
  | cons w rest ih => rw [List.foldl_cons, ih, update_hash_filters]

/-- `get_indexes_of_earliest_matching_word` for an empty word list or an
unknown template id finds nothing. -/
theorem earliest_invalid (lf : LogFilters) (words : List String) (fi : Nat)
    (ws fs : Nat) (h : words = [] ∨ lf.filters[fi]? = none) :
    get_indexes_of_earliest_matching_word lf words fi ws fs = (-1, -1) := by
  unfold get_indexes_of_earliest_matching_word
  rcases h with h | h
  · subst h
    rw [if_pos (Or.inl (by simp only [List.length_nil]; omega))]
  · rw [if_pos (Or.inr h)]

/-- `normalise_lengths_before_first_match` leaves the store untouched when the
word list is empty or the template id does not exist. -/
theorem normalise_invalid (lf : LogFilters) (words : List String) (fi : Nat)
    (ws fs : Nat) (h : words = [] ∨ lf.filters[fi]? = none) :
    normalise_lengths_before_first_match lf words fi ws fs = some (lf, -1, -1) := by
  unfold normalise_lengths_before_first_match
  rw [earliest_invalid lf words fi ws fs h]
  rfl

/-- Exiting the update loop when the `while` guard fails. -/
theorem updLoop_exit (words : List String) (fi : Nat) (fuel : Nat)
    (s : LogFilters) (i j : Int) (hfuel : 0 < fuel)
    (h : ¬(i ≥ 0 ∧ j ≥ 0 ∧ (words.length : Int) > i)) :
    updLoop words fi fuel s i j = some (s, i, j) := by
  cases fuel with
  | zero => omega
  | succ fuel =>
    unfold updLoop
    rw [if_neg h]

/-- `update_filter` with an empty word list or a nonexistent template id is a
no-op (and is not a panic). -/
theorem update_filter_invalid (lf : LogFilters) (words : List String) (fi : Nat)
    (h : words = [] ∨ lf.filters[fi]? = none) :
    update_filter lf words fi = some lf := by
  have hexit := updLoop_exit words fi ((words.length + 1) *
      ((lf.filters[fi]?.getD []).length + words.length + 2) + 1) lf (-1) (-1)
    (by positivity) (by norm_num)
  unfold update_filter
  rw [normalise_invalid lf words fi 0 0 h]
  dsimp only
  rw [hexit]
  norm_num

theorem get_word_index_bounds (lf : LogFilters) (word : String) (fi : Nat)
    (start : Nat) :
    get_word_index_in_filter lf word fi start = -1 ∨
      ∃ f, lf.filters[fi]? = some f ∧
        (start : Int) ≤ get_word_index_in_filter lf word fi start ∧
        get_word_index_in_filter lf word fi start < (f.length : Int) := by
  unfold get_word_index_in_filter
  split
  · exact Or.inl rfl
  · split
    · exact Or.inl rfl
    · split
      · exact Or.inl rfl
      · rename_i f hf
        split
        · exact Or.inl rfl
        · rename_i hg
          push_neg at hg
          rcases findColGo_cases word (f.drop start) start with h | ⟨h1, h2⟩
          · rw [findColFrom, h]
            exact Or.inl rfl
          · right
            refine ⟨f, hf, ?_, ?_⟩
            · exact h1
            · rw [findColFrom]
              have hds : ((f.drop start).length : Int) = (f.length : Int) - start := by
                rw [List.length_drop]
                have := hg.2
                have h0 : 0 < f.length := List.length_pos.mpr hg.1
                omega
              omega

theorem mem_enum_drop {words : List String} {ws : Nat} {p : Nat × String}
    (hp : p ∈ words.enum.drop ws) : ws ≤ p.1 ∧ p.1 < words.length := by
  have hlt : p.1 < words.length := List.fst_lt_of_mem_enum (List.mem_of_mem_drop hp)
  obtain ⟨i, hi, hget⟩ := List.getElem_of_mem hp
  have hq : (words.enum.drop ws)[i]? = some p := by
    rw [List.getElem?_eq_getElem hi, hget]
  rw [List.getElem?_drop] at hq
  have hk : ws + i < words.enum.length := by
    by_contra hcon
    rw [List.getElem?_eq_none (by omega)] at hq
    simp at hq
  have hpe : words.enum[ws + i] = p := by
    rw [List.getElem?_eq_getElem hk] at hq
    exact Option.some.inj hq
  have hp1 : p.1 = ws + i := by
    rw [← hpe, List.getElem_enum]
  omega

theorem earliestGo_bounds (lf : LogFilters) (fi st lo n : Nat) :
    ∀ (l : List (Nat × String)) (fmw fmf : Int),
      (∀ p ∈ l, lo ≤ p.1 ∧ p.1 < n) →
      ((fmw = -1 ∧ fmf = -1) ∨
        ∃ f, lf.filters[fi]? = some f ∧ (lo : Int) ≤ fmw ∧ fmw < (n : Int) ∧
          (st : Int) ≤ fmf ∧ fmf < (f.length : Int)) →
      ((earliestGo lf fi st l fmw fmf = (fmw, fmf)) ∨
        ∃ f, lf.filters[fi]? = some f ∧
          (lo : Int) ≤ (earliestGo lf fi st l fmw fmf).1 ∧
          (earliestGo lf fi st l fmw fmf).1 < (n : Int) ∧
          (st : Int) ≤ (earliestGo lf fi st l fmw fmf).2 ∧
          (earliestGo lf fi st l fmw fmf).2 < (f.length : Int)) := by
  intro l
  induction l with
  | nil =>
    intro fmw fmf _ _
    exact Or.inl rfl
  | cons p rest ih =>
    intro fmw fmf hl hinv
    obtain ⟨wi, w⟩ := p
    simp only [earliestGo]
    split
    · rename_i hcond
      have hb := get_word_index_bounds lf w fi st
      rcases hb with hb | ⟨f, hf, hb1, hb2⟩
      · rw [hb] at hcond
        omega
      · have hwi := hl (wi, w) (List.mem_cons_self _ _)
        rcases ih (wi : Int) (get_word_index_in_filter lf w fi st)
            (fun q hq => hl q (List.mem_cons_of_mem _ hq))
            (Or.inr ⟨f, hf, by exact_mod_cast hwi.1, by exact_mod_cast hwi.2, hb1, hb2⟩)
          with h | h
        · rw [h]
          refine Or.inr ⟨f, hf, ?_, ?_, hb1, hb2⟩
          · show (lo : Int) ≤ (wi : Int)
            exact_mod_cast hwi.1
          · show (wi : Int) < (n : Int)
            exact_mod_cast hwi.2
        · exact Or.inr h
    · exact ih fmw fmf (fun q hq => hl q (List.mem_cons_of_mem _ hq)) hinv

/-- Characterization of a successful earliest-matching-word search. -/
theorem earliest_shape (lf : LogFilters) (words : List String) (fi : Nat)
    (ws fs : Nat) :
    get_indexes_of_earliest_matching_word lf words fi ws fs = (-1, -1) ∨
      ∃ (f : List (List String)) (fw ff : Nat), lf.filters[fi]? = some f ∧
        get_indexes_of_earliest_matching_word lf words fi ws fs = ((fw : Int), (ff : Int)) ∧
        ws ≤ fw ∧ fw < words.length ∧ fs ≤ ff ∧ ff < f.length := by
  unfold get_indexes_of_earliest_matching_word
  split
  · exact Or.inl rfl
  · rename_i hguard
    split
    · exact Or.inl rfl
    · rename_i hguard2
      push_neg at hguard
      have hst : (((ws : Int)) + ((fs : Int) - (ws : Int))).toNat = fs := by omega
      dsimp only
      rw [hst]
      rcases earliestGo_bounds lf fi fs ws words.length (words.enum.drop ws) (-1) (-1)
          (fun p hp => mem_enum_drop hp) (Or.inl ⟨rfl, rfl⟩) with h | ⟨f, hf, h1, h2, h3, h4⟩
      · rw [h]
        exact Or.inl rfl
      · right
        refine ⟨f, (earliestGo lf fi fs (words.enum.drop ws) (-1) (-1)).1.toNat,
          (earliestGo lf fi fs (words.enum.drop ws) (-1) (-1)).2.toNat, hf, ?_, ?_, ?_, ?_, ?_⟩
        · have e1 : ((earliestGo lf fi fs (words.enum.drop ws) (-1) (-1)).1.toNat : Int) =
            (earliestGo lf fi fs (words.enum.drop ws) (-1) (-1)).1 := by omega
          have e2 : ((earliestGo lf fi fs (words.enum.drop ws) (-1) (-1)).2.toNat : Int) =
            (earliestGo lf fi fs (words.enum.drop ws) (-1) (-1)).2 := by omega
          rw [e1, e2]
        · omega
        · omega
        · omega
        · omega

theorem mapIdxFrom_length (g : Nat → List String → List String) (i : Nat)
    (l : List (List String)) : (mapIdxFrom g i l).length = l.length := by
  induction l generalizing i with
  | nil => rfl
  | cons col rest ih =>
    simp only [mapIdxFrom, List.length_cons, ih]

/-- Shape of a `normalise_lengths_before_first_match` call: either nothing
matched and the store is untouched, or the filter at `fi` is rewritten to some
column list `F'` (grown by the inserted front columns in the splice branch,
same length in the mark/add branch), the slice of skipped words is registered
in the reverse index, and the returned boundary is as in the source. -/
theorem normalise_shape (lf : LogFilters) (words : List String) (fi : Nat)
    (ws fs : Nat) :
    normalise_lengths_before_first_match lf words fi ws fs = some (lf, -1, -1) ∨
    ∃ (f F' : List (List String)) (fw ff : Nat),
      lf.filters[fi]? = some f ∧ ws ≤ fw ∧ fw < words.length ∧ fs ≤ ff ∧ ff < f.length ∧
      ((ws < fw ∧ F'.length = f.length + (fw - ws) ∧
        normalise_lengths_before_first_match lf words fi ws fs =
          some (((words.drop ws).take (fw - ws)).foldl (fun acc w => update_hash acc w fi)
              { lf with filters := lf.filters.set fi F' },
            (fw : Int), ((ff + (fw - ws) : Nat) : Int))) ∨
       (F'.length = f.length ∧
        normalise_lengths_before_first_match lf words fi ws fs =
          some (((words.drop ws).take (fw - ws)).foldl (fun acc w => update_hash acc w fi)
              { lf with filters := lf.filters.set fi F' },
            (fw : Int), (ff : Int)))) := by
  rcases earliest_shape lf words fi ws fs with h | ⟨f, fw, ff, hf, heq, h1, h2, h3, h4⟩
  · left
    unfold normalise_lengths_before_first_match
    rw [h]
    rfl
  · right
    unfold normalise_lengths_before_first_match
    rw [heq, hf]
    dsimp only
    rw [if_neg (by omega)]
    have htn : ((fw : Int)).toNat = fw := Int.toNat_natCast fw
    have htf : ((ff : Int)).toNat = ff := Int.toNat_natCast ff
    by_cases hsp : (fw : Int) + ((fs : Int) - (ws : Int)) > (ff : Int)
    · have hws : ws < fw := by omega
      have hslen : ((words.drop ws).take (fw - ws)).length = fw - ws := by
        rw [List.length_take, List.length_drop]
        omega
      rw [if_pos hsp, htn, htf, if_pos (by omega)]
      refine ⟨f, f.take ff ++ ((words.drop ws).take (fw - ws)).map
          (fun w => [w, lf.denote_optional]) ++ f.drop ff, fw, ff,
        rfl, h1, h2, h3, h4, Or.inl ⟨hws, ?_, ?_⟩⟩
      · rw [List.length_append, List.length_append, List.length_map, hslen,
          List.length_take, List.length_drop]
        omega
      · have hfl : (((words.drop ws).take (fw - ws)).map
            (fun w => [w, lf.denote_optional])).length = fw - ws := by
          rw [List.length_map, hslen]
        rw [hfl]
        have hcast : (ff : Int) + ((fw - ws : Nat) : Int) = ((ff + (fw - ws) : Nat) : Int) := by
          push_cast
          omega
        rw [hcast]
    · rw [if_neg hsp]
      have hbdy : (((fs : Int)) + (ff : Int) - (fw : Int) - ((fs : Int) - (ws : Int))).toNat
          = ws + ff - fw := by omega
      rw [htf, hbdy]
      have hrange : ws + (ff - (ws + ff - fw)) ≤ words.length := by omega
      rw [if_pos hrange]
      refine ⟨f, mapIdxFrom (fun c col =>
          if ws + ff - fw ≤ c ∧ c < ff then
            (let w := (words[ws + (c - (ws + ff - fw))]?).getD ""
             if w ∈ col then col else col ++ [w])
          else col) 0
          (mapIdxFrom (fun c col =>
            if fs ≤ c ∧ c < ws + ff - fw then
              (if lf.denote_optional ∈ col then col else col ++ [lf.denote_optional])
            else col) 0 f), fw, ff,
        rfl, h1, h2, h3, h4, Or.inr ⟨?_, rfl⟩⟩
      rw [mapIdxFrom_length, mapIdxFrom_length]

/-- Branch shape of one normalise pass with the new column list explicit: a
splice inserts the pre-boundary words as fresh optional columns, the other
branch pads columns before the boundary with the marker and records the
skipped words as alternatives of the columns they align with. -/
theorem normalise_shape_cols (lf : LogFilters) (words : List String) (fi : Nat)
    (ws fs : Nat) :
    normalise_lengths_before_first_match lf words fi ws fs = some (lf, -1, -1) ∨
    ∃ (f : List (List String)) (fw ff : Nat),
      lf.filters[fi]? = some f ∧ ws ≤ fw ∧ fw < words.length ∧ fs ≤ ff ∧ ff < f.length ∧
      ((ws < fw ∧
        normalise_lengths_before_first_match lf words fi ws fs =
          some (((words.drop ws).take (fw - ws)).foldl (fun acc w => update_hash acc w fi)
              { lf with filters := lf.filters.set fi (f.take ff ++ ((words.drop ws).take (fw - ws)).map (fun w => [w, lf.denote_optional]) ++ f.drop ff) },
            (fw : Int), ((ff + (fw - ws) : Nat) : Int))) ∨
       (fw ≤ ws + ff ∧
        normalise_lengths_before_first_match lf words fi ws fs =
          some (((words.drop ws).take (fw - ws)).foldl (fun acc w => update_hash acc w fi)
              { lf with filters := lf.filters.set fi (mapIdxFrom (fun c col => if ws + ff - fw ≤ c ∧ c < ff then (let w := (words[ws + (c - (ws + ff - fw))]?).getD ""; if w ∈ col then col else col ++ [w]) else col) 0 (mapIdxFrom (fun c col => if fs ≤ c ∧ c < ws + ff - fw then (if lf.denote_optional ∈ col then col else col ++ [lf.denote_optional]) else col) 0 f)) },
            (fw : Int), (ff : Int)))) := by
  rcases earliest_shape lf words fi ws fs with h | ⟨f, fw, ff, hf, heq, h1, h2, h3, h4⟩
  · left
    unfold normalise_lengths_before_first_match
    rw [h]
    rfl
  · right
    unfold normalise_lengths_before_first_match
    rw [heq, hf]
    dsimp only
    rw [if_neg (by omega)]
    have htn : ((fw : Int)).toNat = fw := Int.toNat_natCast fw
    have htf : ((ff : Int)).toNat = ff := Int.toNat_natCast ff
    by_cases hsp : (fw : Int) + ((fs : Int) - (ws : Int)) > (ff : Int)
    · have hws : ws < fw := by omega
      have hslen : ((words.drop ws).take (fw - ws)).length = fw - ws := by
        rw [List.length_take, List.length_drop]
        omega
      rw [if_pos hsp, htn, htf, if_pos (by omega)]
      refine ⟨f, fw, ff, rfl, h1, h2, h3, h4, Or.inl ⟨hws, ?_⟩⟩
      have hfl : (((words.drop ws).take (fw - ws)).map
          (fun w => [w, lf.denote_optional])).length = fw - ws := by
        rw [List.length_map, hslen]
      rw [hfl]
      have hcast : (ff : Int) + ((fw - ws : Nat) : Int) = ((ff + (fw - ws) : Nat) : Int) := by
        push_cast
        omega
      rw [hcast]
    · rw [if_neg hsp]
      have hbdy : (((fs : Int)) + (ff : Int) - (fw : Int) - ((fs : Int) - (ws : Int))).toNat
          = ws + ff - fw := by omega
      rw [htf, hbdy]
      have hrange : ws + (ff - (ws + ff - fw)) ≤ words.length := by omega
      rw [if_pos hrange]
      exact ⟨f, fw, ff, rfl, h1, h2, h3, h4, Or.inr ⟨by omega, rfl⟩⟩

/-- Facts about one normalise step needed for loop termination: the returned
boundary is in range, the template count is unchanged, the quantity
`column_count + (words.len − word_index)` never grows, and either the word
index strictly advanced or the column count is unchanged. -/
theorem normalise_step_facts (lf : LogFilters) (words : List String) (fi : Nat)
    (ws fs : Nat) (s' : LogFilters) (i' j' : Int)
    (h : normalise_lengths_before_first_match lf words fi ws fs = some (s', i', j')) :
    (s' = lf ∧ i' = -1 ∧ j' = -1) ∨
    ((ws : Int) ≤ i' ∧ i' < (words.length : Int) ∧ (fs : Int) ≤ j' ∧
      s'.filters[fi]?.isSome ∧
      j' < ((s'.filters[fi]?.getD []).length : Int) ∧
      s'.filters.length = lf.filters.length ∧
      ((s'.filters[fi]?.getD []).length : Int) + ((words.length : Int) - i') ≤
        ((lf.filters[fi]?.getD []).length : Int) + ((words.length : Int) - (ws : Int)) ∧
      ((ws : Int) < i' ∨
        (s'.filters[fi]?.getD []).length = (lf.filters[fi]?.getD []).length)) := by
  rcases normalise_shape lf words fi ws fs with hs | ⟨f, F', fw, ff, hf, h1, h2, h3, h4, hbr⟩
  · rw [hs] at h
    cases h
    exact Or.inl ⟨rfl, rfl, rfl⟩
  · have hfi : fi < lf.filters.length := by
      by_contra hcon
      rw [List.getElem?_eq_none (by omega)] at hf
      simp at hf
    have hset : ∀ (G : List (List String)),
        ((((words.drop ws).take (fw - ws)).foldl (fun acc w => update_hash acc w fi)
          { lf with filters := lf.filters.set fi G }).filters[fi]?) = some G := by
      intro G
      rw [foldl_update_hash_filters]
      show (lf.filters.set fi G)[fi]? = some G
      rw [List.getElem?_set_self (by omega)]
    have hlen : ∀ (G : List (List String)),
        ((((words.drop ws).take (fw - ws)).foldl (fun acc w => update_hash acc w fi)
          { lf with filters := lf.filters.set fi G }).filters.length) = lf.filters.length := by
      intro G
      rw [foldl_update_hash_filters]
      show (lf.filters.set fi G).length = _
      rw [List.length_set]
    have hflen : (lf.filters[fi]?.getD []).length = f.length := by
      rw [hf, Option.getD_some]
    rcases hbr with ⟨hws, hFlen, heqn⟩ | ⟨hFlen, heqn⟩
    · rw [heqn] at h
      cases h
      right
      rw [hset, hlen, hflen]
      simp only [Option.getD_some, Option.isSome_some]
      refine ⟨by exact_mod_cast h1, by exact_mod_cast h2, ?_, trivial, ?_, trivial, ?_, ?_⟩
      · push_cast
        omega
      · push_cast
        rw [hFlen]
        push_cast
        omega
      · rw [hFlen]
        push_cast
        omega
      · left
        exact_mod_cast hws
    · rw [heqn] at h
      cases h
      right
      rw [hset, hlen, hflen]
      simp only [Option.getD_some, Option.isSome_some]
      refine ⟨by exact_mod_cast h1, by exact_mod_cast h2, by exact_mod_cast h3, trivial, ?_,
        trivial, ?_, Or.inr (by rw [hFlen])⟩
      · rw [hFlen]
        exact_mod_cast h4
      · rw [hFlen]
        omega

theorem normalise_isSome (lf : LogFilters) (words : List String) (fi : Nat)
    (ws fs : Nat) : (normalise_lengths_before_first_match lf words fi ws fs).isSome := by
  rcases normalise_shape lf words fi ws fs with hs | ⟨f, F', fw, ff, _, _, _, _, _, hbr⟩
  · rw [hs]
    rfl
  · rcases hbr with ⟨_, _, heqn⟩ | ⟨_, heqn⟩ <;> rw [heqn] <;> rfl

theorem normalise_filters_length (lf : LogFilters) (words : List String) (fi : Nat)
    (ws fs : Nat) (s' : LogFilters) (i' j' : Int)
    (h : normalise_lengths_before_first_match lf words fi ws fs = some (s', i', j')) :
    s'.filters.length = lf.filters.length := by
  rcases normalise_step_facts lf words fi ws fs s' i' j' h with ⟨h1, _, _⟩ | h2
  · rw [h1]
  · exact h2.2.2.2.2.2.1

theorem measure_dec (A B A' B' K : Nat) (hA' : A' < A) (hB' : B' ≤ K) :
    A' * (K + 1) + B' < A * (K + 1) + B := by
  calc A' * (K + 1) + B' ≤ A' * (K + 1) + K := by omega
    _ < (A' + 1) * (K + 1) := by
        rw [Nat.add_mul, Nat.one_mul]
        omega
    _ ≤ A * (K + 1) := Nat.mul_le_mul_right _ (by omega)
    _ ≤ A * (K + 1) + B := by omega

/-- The update loop terminates within the measure-derived fuel: the word-index
component strictly decreases on splices and manual advances, and the
column-gap component strictly decreases otherwise. -/
theorem updLoop_some (words : List String) (fi : Nat) (K : Nat) :
    ∀ (fuel : Nat) (s : LogFilters) (i j : Int),
      (0 ≤ i → ((s.filters[fi]?.getD []).length : Int) + ((words.length : Int) - i) ≤ K) →
      (((words.length : Int) - i).toNat * (K + 1) +
        (((s.filters[fi]?.getD []).length : Int) - j).toNat < fuel) →
      (updLoop words fi fuel s i j).isSome := by
  intro fuel
  induction fuel with
  | zero =>
    intro s i j _ hm
    omega
  | succ fuel ih =>
    intro s i j hK hm
    unfold updLoop
    split
    · rename_i hguard
      rcases hn : normalise_lengths_before_first_match s words fi i.toNat j.toNat
        with _ | ⟨s', i', j'⟩
      · have hcon := normalise_isSome s words fi i.toNat j.toNat
        rw [hn] at hcon
        simp at hcon
      · dsimp only
        obtain ⟨hg1, hg2, hg3⟩ := hguard
        have hKle := hK hg1
        rcases normalise_step_facts s words fi i.toNat j.toNat s' i' j' hn
          with ⟨hseq, hi', hj'⟩ | ⟨hb1, hb2, hb3, hbsome, hb4, hb5, hb6, hb7⟩
        · rw [if_pos (Or.inl hi')]
          exact rfl
        · have hiInt : ((i.toNat : Int)) = i := by omega
          rw [hiInt] at hb1 hb6 hb7
          have hjInt : ((j.toNat : Int)) = j := by omega
          rw [hjInt] at hb3
          split
          · exact rfl
          · rename_i hneq
            split
            · -- continue with the new boundary
              rename_i hne2
              apply ih s' i' j'
              · intro _
                omega
              · -- the measure strictly decreases
                have hcase : i < i' ∨ (i' = i ∧
                    (s'.filters[fi]?.getD []).length = (s.filters[fi]?.getD []).length ∧
                    j < j') := by
                  rcases hb7 with hlt | hleneq
                  · left
                    exact hlt
                  · rcases lt_or_eq_of_le hb1 with hlt | hieq
                    · left
                      exact hlt
                    · right
                      refine ⟨hieq.symm, hleneq, ?_⟩
                      rcases not_or.mp (by simpa using hneq) with ⟨hi0, hj0⟩
                      rcases hne2 with hc | hc
                      · exact absurd hieq.symm hc
                      · omega
                rcases hcase with hlt | ⟨hieq, hleneq, hjlt⟩
                · have hA : (((words.length : Int) - i').toNat) <
                      (((words.length : Int) - i).toNat) := by omega
                  have hB : ((((s'.filters[fi]?.getD []).length : Int) - j').toNat) ≤ K := by
                    omega
                  have hstep : (((words.length : Int) - i').toNat) * (K + 1) +
                      ((((s'.filters[fi]?.getD []).length : Int) - j').toNat) <
                      (((words.length : Int) - i).toNat) * (K + 1) +
                      ((((s.filters[fi]?.getD []).length : Int) - j).toNat) :=
                    measure_dec _ _ _ _ _ hA hB
                  exact Nat.lt_of_lt_of_le hstep (Nat.lt_succ_iff.mp hm)
                · rw [hieq, hleneq]
                  have hB : ((((s.filters[fi]?.getD []).length : Int) - j').toNat) <
                      ((((s.filters[fi]?.getD []).length : Int) - j).toNat) := by
                    rw [hleneq] at hb4
                    omega
                  have hstep := Nat.add_lt_add_left hB
                    ((((words.length : Int) - i).toNat) * (K + 1))
                  exact Nat.lt_of_lt_of_le hstep (Nat.lt_succ_iff.mp hm)
            · split
              · exact rfl
              · rename_i hneq2 hnotlast
                rcases hsome : s'.filters[fi]? with _ | F'
                · rw [hsome] at hbsome
                  simp at hbsome
                · dsimp only
                  split
                  · exact rfl
                  · -- manual advance: i and j both step forward
                    have hii : i' = i := by
                      have := (by simpa using hneq2 : i' = i ∧ j' = j)
                      exact this.1
                    have hlen' : (s'.filters[fi]?.getD []).length =
                        (s.filters[fi]?.getD []).length := by
                      rcases hb7 with hlt | hleneq
                      · omega
                      · exact hleneq
                    apply ih s' (i + 1) (j + 1)
                    · intro _
                      rw [hlen']
                      omega
                    · have hA : (((words.length : Int) - (i + 1)).toNat) <
                          (((words.length : Int) - i).toNat) := by omega
                      have hB : ((((s'.filters[fi]?.getD []).length : Int) - (j + 1)).toNat)
                          ≤ K := by
                        rw [hlen']
                        omega
                      have hstep : (((words.length : Int) - (i + 1)).toNat) * (K + 1) +
                          ((((s'.filters[fi]?.getD []).length : Int) - (j + 1)).toNat) <
                          (((words.length : Int) - i).toNat) * (K + 1) +
                          ((((s.filters[fi]?.getD []).length : Int) - j).toNat) :=
                        measure_dec _ _ _ _ _ hA hB
                      exact Nat.lt_of_lt_of_le hstep (Nat.lt_succ_iff.mp hm)
    · exact rfl

theorem updLoop_filters_length (words : List String) (fi : Nat) :
    ∀ (fuel : Nat) (s : LogFilters) (i j : Int) (s2 : LogFilters) (i2 j2 : Int),
      updLoop words fi fuel s i j = some (s2, i2, j2) →
      s2.filters.length = s.filters.length := by
  intro fuel
  induction fuel with
  | zero =>
    intro s i j s2 i2 j2 h
    simp [updLoop] at h
  | succ fuel ih =>
    intro s i j s2 i2 j2 h
    unfold updLoop at h
    by_cases hguard : i ≥ 0 ∧ j ≥ 0 ∧ (words.length : Int) > i
    · rw [if_pos hguard] at h
      rcases hn : normalise_lengths_before_first_match s words fi i.toNat j.toNat
        with _ | ⟨s', i', j'⟩
      · rw [hn] at h
        dsimp only at h
        cases h
      · rw [hn] at h
        dsimp only at h
        have hlen' : s'.filters.length = s.filters.length :=
          normalise_filters_length s words fi i.toNat j.toNat s' i' j' hn
        by_cases h1 : i' = -1 ∨ j' = -1
        · rw [if_pos h1] at h
          cases h
          exact hlen'
        · rw [if_neg h1] at h
          by_cases h2 : i' ≠ i ∨ j' ≠ j
          · rw [if_pos h2] at h
            rw [ih s' i' j' s2 i2 j2 h, hlen']
          · rw [if_neg h2] at h
            by_cases h3 : i = (words.length : Int) - 1
            · rw [if_pos h3] at h
              cases h
              exact hlen'
            · rw [if_neg h3] at h
              rcases hf : s'.filters[fi]? with _ | f
              · rw [hf] at h
                dsimp only at h
                cases h
              · rw [hf] at h
                dsimp only at h
                by_cases h4 : j = (f.length : Int) - 1
                · rw [if_pos h4] at h
                  cases h
                  exact hlen'
                · rw [if_neg h4] at h
                  rw [ih s' (i + 1) (j + 1) s2 i2 j2 h, hlen']
    · rw [if_neg hguard] at h
      cases h
      rfl

theorem pushExtraWords_filters_length (fi : Nat) :
    ∀ (ws : List String) (lf : LogFilters),
      (pushExtraWords fi lf ws).filters.length = lf.filters.length := by
  intro ws
  induction ws with
  | nil =>
    intro lf
    rfl
  | cons w rest ih =>
    intro lf
    rw [pushExtraWords, ih, update_hash_filters]
    show (lf.filters.set fi _).length = _
    rw [List.length_set]

/-- `update_filter` always succeeds (no panic, and the fuel chosen for the
loop suffices), and never changes the number of templates. -/
theorem update_filter_shape (lf : LogFilters) (words : List String) (fi : Nat) :
    ∃ lf', update_filter lf words fi = some lf' ∧
      lf'.filters.length = lf.filters.length := by
  unfold update_filter
  rcases hn0 : normalise_lengths_before_first_match lf words fi 0 0 with _ | ⟨s1, i1, j1⟩
  · have hcon := normalise_isSome lf words fi 0 0
    rw [hn0] at hcon
    simp at hcon
  · dsimp only
    have hlen1 : s1.filters.length = lf.filters.length :=
      normalise_filters_length lf words fi 0 0 s1 i1 j1 hn0
    have hloop : (updLoop words fi ((words.length + 1) *
        ((s1.filters[fi]?.getD []).length + words.length + 2) + 1) s1 i1 j1).isSome := by
      by_cases hg : i1 ≥ 0 ∧ j1 ≥ 0 ∧ (words.length : Int) > i1
      · apply updLoop_some words fi ((s1.filters[fi]?.getD []).length + words.length)
        · intro _
          omega
        · have h1 : (((words.length : Int) - i1).toNat) ≤ words.length := by omega
          have h2 : ((((s1.filters[fi]?.getD []).length : Int) - j1).toNat) ≤
              (s1.filters[fi]?.getD []).length := by omega
          have hmu := Nat.mul_le_mul_right
            ((s1.filters[fi]?.getD []).length + words.length + 1) h1
          have hexp : (words.length + 1) *
              ((s1.filters[fi]?.getD []).length + words.length + 2) + 1 =
              words.length * ((s1.filters[fi]?.getD []).length + words.length + 1) +
              ((s1.filters[fi]?.getD []).length + 2 * words.length + 3) := by ring
          omega
      · rw [updLoop_exit words fi _ s1 i1 j1 (Nat.succ_pos _) hg]
        rfl
    rcases hl : updLoop words fi ((words.length + 1) *
        ((s1.filters[fi]?.getD []).length + words.length + 2) + 1) s1 i1 j1
      with _ | ⟨s2, i2, j2⟩
    · rw [hl] at hloop
      simp at hloop
    · dsimp only
      have hlen2 : s2.filters.length = lf.filters.length := by
        rw [updLoop_filters_length words fi _ s1 i1 j1 s2 i2 j2 hl, hlen1]
      by_cases hg2 : i2 ≥ 0 ∧ j2 ≥ 0
      · rw [if_pos hg2]
        have hfival : fi < lf.filters.length := by
          by_contra hout
          have hnone : lf.filters[fi]? = none := List.getElem?_eq_none (by omega)
          have := normalise_invalid lf words fi 0 0 (Or.inr hnone)
          rw [hn0] at this
          cases this
          have hexit := updLoop_exit words fi ((words.length + 1) *
              ((lf.filters[fi]?.getD []).length + words.length + 2) + 1) lf (-1) (-1)
            (Nat.succ_pos _) (by omega)
          rw [hexit] at hl
          cases hl
          omega
        rcases hf2 : s2.filters[fi]? with _ | f
        · rw [List.getElem?_eq_none_iff] at hf2
          omega
        · dsimp only
          by_cases hp : words.length > f.length ∧ j2 = (f.length : Int) - 1
          · rw [if_pos hp]
            refine ⟨_, rfl, ?_⟩
            rw [pushExtraWords_filters_length, hlen2]
          · rw [if_neg hp]
            by_cases hi2 : i2 < (words.length : Int)
            · rw [if_pos hi2]
              rcases hn1 : normalise_lengths_before_first_match
                  { s2 with filters := s2.filters.set fi f.reverse } words.reverse fi 0 0
                with _ | ⟨s4, a4, b4⟩
              · have hcon := normalise_isSome
                  { s2 with filters := s2.filters.set fi f.reverse } words.reverse fi 0 0
                rw [hn1] at hcon
                simp at hcon
              · dsimp only
                refine ⟨_, rfl, ?_⟩
                show (s4.filters.set fi _).length = _
                rw [List.length_set]
                rw [normalise_filters_length _ _ _ _ _ s4 a4 b4 hn1]
                show (s2.filters.set fi f.reverse).length = _
                rw [List.length_set, hlen2]
            · rw [if_neg hi2]
              exact ⟨s2, rfl, hlen2⟩
      · rw [if_neg hg2]
        exact ⟨s2, rfl, hlen2⟩

theorem foldl_update_hash_head_filters (L : List (List String)) (e : Nat)
    (s : LogFilters) :
    (L.foldl (fun acc col => update_hash acc (col.headD "") e) s).filters = s.filters := by
  induction L generalizing s with
  | nil => rfl
  | cons c rest ih => rw [List.foldl_cons, ih, update_hash_filters]

theorem add_filter_filters_length (lf : LogFilters) (words : List String) :
    (add_filter lf words).filters.length = lf.filters.length ∨
    (add_filter lf words).filters.length = lf.filters.length + 1 := by
  unfold add_filter
  by_cases hnf : (words.filter (fun w => decide (w ≠ ""))).map (fun w => [w]) = []
  · rw [if_pos hnf]
    left
    rfl
  · rw [if_neg hnf]
    right
    rw [foldl_update_hash_head_filters]
    show (lf.filters ++ _).length = _
    rw [List.length_append]
    rfl

/-! ## Safety of the selection pipeline under bucket bounds -/

theorem mem_foldl_append {α β : Type} (g : β → List α) :
    ∀ (ws : List β) (acc0 : List α) (t : α),
      t ∈ ws.foldl (fun acc w => acc ++ g w) acc0 ↔
        t ∈ acc0 ∨ ∃ w ∈ ws, t ∈ g w := by
  intro ws
  induction ws with
  | nil =>
    intro acc0 t
    simp
  | cons w rest ih =>
    intro acc0 t
    rw [List.foldl_cons, ih]
    simp only [List.mem_append, List.mem_cons]
    constructor
    · rintro ((h | h) | ⟨w', hw', h⟩)
      · exact Or.inl h
      · exact Or.inr ⟨w, Or.inl rfl, h⟩
      · exact Or.inr ⟨w', Or.inr hw', h⟩
    · rintro (h | ⟨w', (rfl | hw'), h⟩)
      · exact Or.inl (Or.inl h)
      · exact Or.inl (Or.inr h)
      · exact Or.inr ⟨w', hw', h⟩

theorem mem_sorted_concat (lf : LogFilters) (words : List String) (t : Nat)
    (ht : t ∈ get_sorted_filter_indexes_containing_words lf words) :
    ∃ w, t ∈ hashGet lf.words_hash w := by
  unfold get_sorted_filter_indexes_containing_words at ht
  rw [List.mem_insertionSort] at ht
  rcases (mem_foldl_append (hashGet lf.words_hash) words [] t).mp ht with h | ⟨w, _, h⟩
  · cases h
  · exact ⟨w, h⟩

theorem bucket_mem_lt (lf : LogFilters) (hb : BucketBounds lf) (w : String)
    (t : Nat) (ht : t ∈ hashGet lf.words_hash w) : t < lf.filters.length := by
  obtain ⟨p, hp, -, hpt⟩ := mem_hashGet_exists ht
  exact hb p hp t hpt

theorem selGo_some (lf : LogFilters) (n : Nat) :
    ∀ (l : List Nat) (mcount optalts : Nat) (prev lastIns : Int) (acc : List Nat),
      (∀ t ∈ l, t < lf.filters.length) →
      (selGo lf n l mcount optalts prev lastIns acc).isSome := by
  intro l
  induction l with
  | nil =>
    intro mcount optalts prev lastIns acc _
    rfl
  | cons fi rest ih =>
    intro mcount optalts prev lastIns acc hvalid
    unfold selGo
    by_cases heq : (fi : Int) = lastIns
    · rw [if_pos heq]
      exact ih mcount optalts prev lastIns acc
        (fun t ht => hvalid t (List.mem_cons_of_mem _ ht))
    · rw [if_neg heq]
      rcases hf : lf.filters[fi]? with _ | f
      · rw [List.getElem?_eq_none_iff] at hf
        exact absurd (hvalid fi (List.mem_cons_self _ _)) (by omega)
      · dsimp only
        split <;> split <;>
          exact ih _ _ _ _ _ (fun t ht => hvalid t (List.mem_cons_of_mem _ ht))

theorem selGo_mem (lf : LogFilters) (n : Nat) :
    ∀ (l : List Nat) (mcount optalts : Nat) (prev lastIns : Int) (acc out : List Nat),
      selGo lf n l mcount optalts prev lastIns acc = some out →
      ∀ t ∈ out, t ∈ acc ∨ t ∈ l := by
  intro l
  induction l with
  | nil =>
    intro mcount optalts prev lastIns acc out h t ht
    cases h
    exact Or.inl ht
  | cons fi rest ih =>
    intro mcount optalts prev lastIns acc out h t ht
    unfold selGo at h
    by_cases heq : (fi : Int) = lastIns
    · rw [if_pos heq] at h
      rcases ih _ _ _ _ _ _ h t ht with h1 | h1
      · exact Or.inl h1
      · exact Or.inr (List.mem_cons_of_mem _ h1)
    · rw [if_neg heq] at h
      rcases hf : lf.filters[fi]? with _ | f
      · rw [hf] at h
        cases h
      · rw [hf] at h
        dsimp only at h
        split at h <;> split at h <;>
          first
          | (rcases ih _ _ _ _ _ _ h t ht with h1 | h1
             · rcases List.mem_append.mp h1 with h2 | h2
               · exact Or.inl h2
               · rw [List.mem_singleton] at h2
                 exact Or.inr (h2 ▸ List.mem_cons_self _ _)
             · exact Or.inr (List.mem_cons_of_mem _ h1))
          | (rcases ih _ _ _ _ _ _ h t ht with h1 | h1
             · exact Or.inl h1
             · exact Or.inr (List.mem_cons_of_mem _ h1))

theorem fbGo_ties_mem (lf : LogFilters) (words : List String) :
    ∀ (l : List Nat) (best : Int) (maxc : Nat) (ties : List Nat),
      ∀ t ∈ (fbGo lf words l best maxc ties).2.2, t ∈ ties ∨ t ∈ l := by
  intro l
  induction l with
  | nil =>
    intro best maxc ties t ht
    exact Or.inl ht
  | cons fi rest ih =>
    intro best maxc ties t ht
    unfold fbGo at ht
    dsimp only at ht
    split at ht
    · rcases ih _ _ _ t ht with h1 | h1
      · cases h1
      · exact Or.inr (List.mem_cons_of_mem _ h1)
    · split at ht
      · rcases ih _ _ _ t ht with h1 | h1
        · rcases List.mem_append.mp h1 with h2 | h2
          · exact Or.inl h2
          · rw [List.mem_singleton] at h2
            subst h2
            exact Or.inr (List.mem_cons_self _ _)
        · exact Or.inr (List.mem_cons_of_mem _ h1)
      · rcases ih _ _ _ t ht with h1 | h1
        · exact Or.inl h1
        · exact Or.inr (List.mem_cons_of_mem _ h1)

theorem sorted_concat_bounded (lf : LogFilters) (hb : BucketBounds lf)
    (words : List String) :
    ∀ t ∈ get_sorted_filter_indexes_containing_words lf words,
      t < lf.filters.length := by
  intro t ht
  obtain ⟨w, hw⟩ := mem_sorted_concat lf words t ht
  exact bucket_mem_lt lf hb w t hw

theorem find_best_some (lf : LogFilters) (hb : BucketBounds lf)
    (words : List String) : (find_best_matching_filter_index lf words).isSome := by
  unfold find_best_matching_filter_index
  by_cases hempty : lf.filters = [] ∨ words = []
  · rw [if_pos hempty]
    rfl
  · rw [if_neg hempty]
    have hsel := selGo_some lf words.length
      (get_sorted_filter_indexes_containing_words lf words) 0 0 (-1) (-1) []
      (sorted_concat_bounded lf hb words)
    rcases hc : get_filter_indexes_with_min_req_matches lf words with _ | cands
    · unfold get_filter_indexes_with_min_req_matches at hc
      rw [hc] at hsel
      simp at hsel
    · dsimp only
      split
      · have hties : ∀ t ∈ (fbGo lf words cands (-1) 0 []).2.2,
            t < lf.filters.length := by
          intro t ht
          rcases fbGo_ties_mem lf words cands (-1) 0 [] t ht with h1 | h1
          · cases h1
          · have hmem : t ∈ get_sorted_filter_indexes_containing_words lf words := by
              unfold get_filter_indexes_with_min_req_matches at hc
              rcases selGo_mem lf words.length _ 0 0 (-1) (-1) [] cands hc t h1
                with h2 | h2
              · cases h2
              · exact h2
            exact sorted_concat_bounded lf hb words t hmem
        rw [if_neg (by
          intro hcon
          exact hcon.2 hties)]
        rfl
      · rfl

theorem learn_line_some (lf : LogFilters) (hb : BucketBounds lf)
    (log_line : String) : (learn_line lf log_line).isSome := by
  unfold learn_line
  dsimp only
  rcases hfb : find_best_matching_filter_index lf (line_to_words lf log_line)
    with _ | idx
  · have := find_best_some lf hb (line_to_words lf log_line)
    rw [hfb] at this
    simp at this
  · dsimp only
    by_cases hidx : idx ≥ 0
    · rw [if_pos hidx]
      exact (update_filter_shape lf (line_to_words lf log_line) idx.toNat).elim
        (fun lf' h => by rw [h.1]; rfl)
    · rw [if_neg hidx]
      rfl

theorem is_line_known_some (lf : LogFilters) (hb : BucketBounds lf)
    (log_line : String) : (is_line_known lf log_line).isSome := by
  unfold is_line_known
  rcases hfb : find_best_matching_filter_index lf (line_to_words lf log_line)
    with _ | idx
  · have := find_best_some lf hb (line_to_words lf log_line)
    rw [hfb] at this
    simp at this
  · rfl

/-! ## The selector characterized over the sorted occurrence list -/

theorem selThresh_mono (lf : LogFilters) (n : Nat) (f : List (List String))
    {m m' : Nat} (h : m ≤ m') (ht : selThresh lf n m f) : selThresh lf n m' f := by
  unfold selThresh at ht ⊢
  omega

theorem selGo_skip (lf : LogFilters) (n : Nat) (t : Nat) (rest : List Nat) :
    ∀ (c : Nat) (m o : Nat) (p : Int) (acc : List Nat),
      selGo lf n (List.replicate c t ++ rest) m o p (t : Int) acc =
        selGo lf n rest m o p (t : Int) acc := by
  intro c
  induction c with
  | zero =>
    intro m o p acc
    rfl
  | succ c ih =>
    intro m o p acc
    rw [List.replicate_succ, List.cons_append]
    show selGo lf n (t :: (List.replicate c t ++ rest)) m o p (t : Int) acc = _
    rw [selGo]
    rw [if_pos rfl]
    exact ih m o p acc

theorem selGo_run (lf : LogFilters) (n : Nat) (t : Nat) (f : List (List String))
    (hf : lf.filters[t]? = some f) (rest : List Nat) (lastIns : Int)
    (hlast : lastIns ≠ (t : Int)) :
    ∀ (c m : Nat) (acc : List Nat), ¬ selThresh lf n m f →
      selGo lf n (List.replicate c t ++ rest) m (countOptionalAlternatives lf f)
          (t : Int) lastIns acc =
        if selThresh lf n (m + c) f
        then selGo lf n rest 0 (countOptionalAlternatives lf f) (t : Int) (t : Int)
          (acc ++ [t])
        else selGo lf n rest (m + c) (countOptionalAlternatives lf f) (t : Int)
          lastIns acc := by
  intro c
  induction c with
  | zero =>
    intro m acc hm
    rw [if_neg (by simpa using hm)]
    rfl
  | succ c ih =>
    intro m acc hm
    rw [List.replicate_succ, List.cons_append]
    show selGo lf n (t :: (List.replicate c t ++ rest)) m _ (t : Int) lastIns acc = _
    rw [selGo]
    rw [if_neg (fun h => hlast h.symm), hf]
    dsimp only
    rw [if_neg (not_not_intro rfl)]
    dsimp only
    by_cases hth : selThresh lf n (m + 1) f
    · have hth' : ((((m + 1 : Nat)) : Int) ≥ (n : Int) -
          (lf.max_allowed_new_alternatives : Int)) ∧
          ((((m + 1 : Nat)) : Int) ≥ (f.length : Int) -
            (lf.max_allowed_new_alternatives : Int) -
            (countOptionalAlternatives lf f : Int)) := hth
      rw [if_pos hth', selGo_skip]
      rw [if_pos (selThresh_mono lf n f (by omega) hth)]
    · have hth' : ¬ (((((m + 1 : Nat)) : Int) ≥ (n : Int) -
          (lf.max_allowed_new_alternatives : Int)) ∧
          ((((m + 1 : Nat)) : Int) ≥ (f.length : Int) -
            (lf.max_allowed_new_alternatives : Int) -
            (countOptionalAlternatives lf f : Int))) := hth
      rw [if_neg hth', ih (m + 1) acc hth]
      have harith : m + 1 + c = m + (c + 1) := by omega
      rw [harith]

theorem selGo_block (lf : LogFilters) (n : Nat) (t : Nat) (f : List (List String))
    (hf : lf.filters[t]? = some f) (rest : List Nat) (prev lastIns : Int)
    (hprev : prev ≠ (t : Int)) (hlast : lastIns ≠ (t : Int)) (c : Nat) (hc : 0 < c)
    (m o : Nat) (acc : List Nat) :
    selGo lf n (List.replicate c t ++ rest) m o prev lastIns acc =
      if selThresh lf n c f
      then selGo lf n rest 0 (countOptionalAlternatives lf f) (t : Int) (t : Int)
        (acc ++ [t])
      else selGo lf n rest c (countOptionalAlternatives lf f) (t : Int) lastIns acc := by
  obtain ⟨c', rfl⟩ : ∃ c', c = c' + 1 := ⟨c - 1, by omega⟩
  rw [List.replicate_succ, List.cons_append]
  show selGo lf n (t :: (List.replicate c' t ++ rest)) m o prev lastIns acc = _
  rw [selGo]
  rw [if_neg (fun h => hlast h.symm), hf]
  dsimp only
  rw [if_pos hprev]
  dsimp only
  by_cases h1 : selThresh lf n 1 f
  · have h1' : ((((1 : Nat)) : Int) ≥ (n : Int) -
        (lf.max_allowed_new_alternatives : Int)) ∧
        ((((1 : Nat)) : Int) ≥ (f.length : Int) -
          (lf.max_allowed_new_alternatives : Int) -
          (countOptionalAlternatives lf f : Int)) := h1
    rw [if_pos (by exact_mod_cast h1'), selGo_skip]
    rw [if_pos (selThresh_mono lf n f (by omega) h1)]
  · have h1' : ¬ (((((1 : Nat)) : Int) ≥ (n : Int) -
        (lf.max_allowed_new_alternatives : Int)) ∧
        ((((1 : Nat)) : Int) ≥ (f.length : Int) -
          (lf.max_allowed_new_alternatives : Int) -
          (countOptionalAlternatives lf f : Int))) := h1
    rw [if_neg (by exact_mod_cast h1'), selGo_run lf n t f hf rest lastIns hlast c' 1 acc h1]
    have harith : 1 + c' = c' + 1 := by omega
    rw [harith]

theorem sorted_block_decomp (t : Nat) :
    ∀ (L : List Nat), (t :: L).Sorted (· ≤ ·) →
      ∃ c rest, t :: L = List.replicate (c + 1) t ++ rest ∧
        (∀ x ∈ rest, t < x) ∧ rest.Sorted (· ≤ ·) ∧ rest.length ≤ L.length := by
  intro L
  induction L with
  | nil =>
    intro _
    exact ⟨0, [], rfl, by simp, List.sorted_nil, le_rfl⟩
  | cons y ys ih =>
    intro hsort
    rw [List.sorted_cons] at hsort
    obtain ⟨hty, hsy⟩ := hsort
    by_cases hey : t = y
    · subst hey
      obtain ⟨c, rest, heq, hgt, hrs, hlen⟩ := ih hsy
      refine ⟨c + 1, rest, ?_, hgt, hrs, by simp only [List.length_cons]; omega⟩
      rw [List.replicate_succ, List.cons_append, ← heq]
    · refine ⟨0, y :: ys, rfl, ?_, hsy, le_rfl⟩
      intro x hx
      have hle : t ≤ x := hty x hx
      rcases List.mem_cons.mp hx with rfl | hx'
      · omega
      · rw [List.sorted_cons] at hsy
        have := hsy.1 x hx'
        have hty' : t ≤ y := hty y (List.mem_cons_self _ _)
        omega

theorem count_replicate_append_self (t : Nat) (c : Nat) (rest : List Nat)
    (hnot : t ∉ rest) :
    (List.replicate c t ++ rest).count t = c := by
  rw [List.count_append, List.count_replicate, List.count_eq_zero.mpr hnot]
  simp

theorem count_replicate_append_other (t x : Nat) (c : Nat) (rest : List Nat)
    (hne : x ≠ t) :
    (List.replicate c t ++ rest).count x = rest.count x := by
  rw [List.count_append, List.count_replicate]
  simp [Ne.symm hne]

theorem selGo_full (lf : LogFilters) (n : Nat) :
    ∀ (fuel : Nat) (L : List Nat), L.length ≤ fuel →
      L.Sorted (· ≤ ·) → (∀ x ∈ L, x < lf.filters.length) →
      ∀ (m o : Nat) (prev lastIns : Int) (acc : List Nat),
        (∀ x ∈ L, prev < (x : Int)) → (∀ x ∈ L, lastIns < (x : Int)) →
        ∃ out, selGo lf n L m o prev lastIns acc = some (acc ++ out) ∧
          out.Pairwise (· < ·) ∧
          ∀ x, x ∈ out ↔ x ∈ L ∧
            selThresh lf n (L.count x) (lf.filters[x]?.getD []) := by
  intro fuel
  induction fuel with
  | zero =>
    intro L hlen _ _ m o prev lastIns acc _ _
    have : L = [] := List.eq_nil_of_length_eq_zero (by omega)
    subst this
    exact ⟨[], by rw [List.append_nil]; rfl, List.Pairwise.nil, by simp⟩
  | succ fuel ih =>
    intro L hlen hsort hbound m o prev lastIns acc hprev hlast
    match L with
    | [] =>
      exact ⟨[], by rw [List.append_nil]; rfl, List.Pairwise.nil, by simp⟩
    | t :: L' =>
      obtain ⟨c, rest, heq, hgt, hrs, hrlen⟩ := sorted_block_decomp t L' hsort
      have htmem : t ∈ t :: L' := List.mem_cons_self _ _
      have htlt : t < lf.filters.length := hbound t htmem
      have hf : lf.filters[t]? = some (lf.filters[t]) :=
        List.getElem?_eq_getElem htlt
      have hnotrest : t ∉ rest := fun hmem => absurd (hgt t hmem) (lt_irrefl t)
      have hcnt : (t :: L').count t = c + 1 := by
        rw [heq]
        exact count_replicate_append_self t (c + 1) rest hnotrest
      have hcnt' : ∀ x ∈ rest, (t :: L').count x = rest.count x := by
        intro x hx
        rw [heq]
        exact count_replicate_append_other t x (c + 1) rest
          (fun hxe => absurd (hgt x hx) (by omega))
      have hrbound : ∀ x ∈ rest, x < lf.filters.length := by
        intro x hx
        apply hbound
        rw [heq]
        exact List.mem_append_right _ hx
      have hrlen' : rest.length ≤ fuel := by
        have : (t :: L').length = L'.length + 1 := rfl
        omega
      have hblock := selGo_block lf n t _ hf rest prev lastIns
        (fun h => absurd (hprev t htmem) (by rw [h]; exact lt_irrefl _))
        (fun h => absurd (hlast t htmem) (by rw [h]; exact lt_irrefl _))
        (c + 1) (Nat.succ_pos c) m o acc
      rw [← heq] at hblock
      rw [hblock]
      have hgetD : lf.filters[t]?.getD [] = lf.filters[t] := by
        rw [hf]
        rfl
      by_cases hth : selThresh lf n (c + 1) (lf.filters[t])
      · rw [if_pos hth]
        obtain ⟨out, hsel, hpw, hmem⟩ := ih rest hrlen' hrs hrbound 0
          (countOptionalAlternatives lf (lf.filters[t])) (t : Int) (t : Int)
          (acc ++ [t]) (fun x hx => by exact_mod_cast hgt x hx)
          (fun x hx => by exact_mod_cast hgt x hx)
        refine ⟨t :: out, ?_, ?_, ?_⟩
        · rw [hsel, List.append_assoc]
          rfl
        · rw [List.pairwise_cons]
          refine ⟨fun x hx => ?_, hpw⟩
          exact hgt x ((hmem x).mp hx).1
        · intro x
          rw [List.mem_cons]
          constructor
          · rintro (rfl | hx)
            · refine ⟨htmem, ?_⟩
              rw [hcnt, hgetD]
              exact hth
            · obtain ⟨hxr, hxth⟩ := (hmem x).mp hx
              refine ⟨by rw [heq]; exact List.mem_append_right _ hxr, ?_⟩
              rw [hcnt' x hxr]
              exact hxth
          · rintro ⟨hxL, hxth⟩
            rcases List.mem_cons.mp hxL with rfl | hxL'
            · exact Or.inl rfl
            · have hxrest : x ∈ rest ∨ x = t := by
                have : x ∈ List.replicate (c + 1) t ++ rest := by
                  rw [← heq]
                  exact List.mem_cons_of_mem _ hxL'
                rcases List.mem_append.mp this with h2 | h2
                · exact Or.inr (List.eq_of_mem_replicate h2)
                · exact Or.inl h2
              rcases hxrest with hxr | rfl
              · refine Or.inr ((hmem x).mpr ⟨hxr, ?_⟩)
                rw [← hcnt' x hxr]
                exact hxth
              · exact Or.inl rfl
      · rw [if_neg hth]
        obtain ⟨out, hsel, hpw, hmem⟩ := ih rest hrlen' hrs hrbound (c + 1)
          (countOptionalAlternatives lf (lf.filters[t])) (t : Int) lastIns
          acc (fun x hx => by exact_mod_cast hgt x hx)
          (fun x hx => lt_trans (hlast t htmem) (by exact_mod_cast hgt x hx))
        refine ⟨out, hsel, hpw, ?_⟩
        intro x
        rw [hmem x]
        constructor
        · rintro ⟨hxr, hxth⟩
          refine ⟨by rw [heq]; exact List.mem_append_right _ hxr, ?_⟩
          rw [hcnt' x hxr]
          exact hxth
        · rintro ⟨hxL, hxth⟩
          have hxrest : x ∈ rest ∨ x = t := by
            have : x ∈ List.replicate (c + 1) t ++ rest := by
              rw [← heq]
              exact hxL
            rcases List.mem_append.mp this with h2 | h2
            · exact Or.inr (List.eq_of_mem_replicate h2)
            · exact Or.inl h2
          rcases hxrest with hxr | rfl
          · refine ⟨hxr, ?_⟩
            rw [← hcnt' x hxr]
            exact hxth
          · exact absurd hxth (by rw [hcnt, hgetD]; exact hth)

theorem pairwise_lt_ext : ∀ (l₁ l₂ : List Nat), l₁.Pairwise (· < ·) →
    l₂.Pairwise (· < ·) → (∀ x, x ∈ l₁ ↔ x ∈ l₂) → l₁ = l₂ := by
  intro l₁
  induction l₁ with
  | nil =>
    intro l₂ _ _ h
    cases l₂ with
    | nil => rfl
    | cons b l₂' =>
      exact absurd ((h b).mpr (List.mem_cons_self _ _)) (List.not_mem_nil b)
  | cons a l₁' ih =>
    intro l₂ h₁ h₂ h
    cases l₂ with
    | nil => exact absurd ((h a).mp (List.mem_cons_self _ _)) (List.not_mem_nil a)
    | cons b l₂' =>
      rw [List.pairwise_cons] at h₁ h₂
      have hab : a = b := by
        have ha : a ∈ b :: l₂' := (h a).mp (List.mem_cons_self _ _)
        have hb : b ∈ a :: l₁' := (h b).mpr (List.mem_cons_self _ _)
        rcases List.mem_cons.mp ha with h1 | h1
        · exact h1
        · rcases List.mem_cons.mp hb with h2 | h2
          · exact h2.symm
          · have := h₂.1 a h1
            have := h₁.1 b h2
            omega
      subst hab
      have htail : l₁' = l₂' := by
        apply ih l₂' h₁.2 h₂.2
        intro x
        constructor
        · intro hx
          rcases List.mem_cons.mp ((h x).mp (List.mem_cons_of_mem _ hx)) with h1 | h1
          · exact absurd (h₁.1 x hx) (by omega)
          · exact h1
        · intro hx
          rcases List.mem_cons.mp ((h x).mpr (List.mem_cons_of_mem _ hx)) with h1 | h1
          · exact absurd (h₂.1 x hx) (by omega)
          · exact h1
      rw [htail]

theorem specCandidates_pairwise (lf : LogFilters) (words : List String) :
    (specCandidates lf words).Pairwise (· < ·) := by
  unfold specCandidates
  dsimp only
  apply List.Pairwise.filter
  have hs := List.sorted_insertionSort (· ≤ ·)
    (get_sorted_filter_indexes_containing_words lf words).dedup
  have hn : (List.insertionSort (· ≤ ·)
      (get_sorted_filter_indexes_containing_words lf words).dedup).Nodup :=
    (List.perm_insertionSort _ _).nodup_iff.mpr (List.nodup_dedup _)
  exact (hs.and hn).imp (fun h => lt_of_le_of_ne h.1 h.2)

theorem mem_specCandidates (lf : LogFilters) (words : List String) (x : Nat) :
    x ∈ specCandidates lf words ↔
      x ∈ get_sorted_filter_indexes_containing_words lf words ∧
        selThresh lf words.length
          ((get_sorted_filter_indexes_containing_words lf words).count x)
          (lf.filters[x]?.getD []) := by
  unfold specCandidates selThresh
  simp only [List.mem_filter, List.mem_insertionSort, List.mem_dedup,
    Bool.and_eq_true, decide_eq_true_eq]

theorem selector_eq_spec (lf : LogFilters) (hb : BucketBounds lf)
    (words : List String) :
    get_filter_indexes_with_min_req_matches lf words =
      some (specCandidates lf words) := by
  unfold get_filter_indexes_with_min_req_matches
  have hsorted : (get_sorted_filter_indexes_containing_words lf words).Sorted
      (· ≤ ·) := by
    unfold get_sorted_filter_indexes_containing_words
    exact List.sorted_insertionSort _ _
  obtain ⟨out, hsel, hpw, hmem⟩ := selGo_full lf words.length
    (get_sorted_filter_indexes_containing_words lf words).length
    (get_sorted_filter_indexes_containing_words lf words) le_rfl
    hsorted (sorted_concat_bounded lf hb words) 0 0 (-1) (-1) []
    (fun x _ => by omega) (fun x _ => by omega)
  rw [hsel, List.nil_append]
  congr 1
  apply pairwise_lt_ext out (specCandidates lf words) hpw
    (specCandidates_pairwise lf words)
  intro x
  rw [hmem x, mem_specCandidates]

/-! ## The best-candidate fold -/

theorem foldl_max_init_le (s : Nat → Nat) :
    ∀ (l : List Nat) (m0 : Nat), m0 ≤ l.foldl (fun m t => max m (s t)) m0 := by
  intro l
  induction l with
  | nil =>
    intro m0
    exact le_rfl
  | cons a rest ih =>
    intro m0
    rw [List.foldl_cons]
    exact le_trans (Nat.le_max_left m0 (s a)) (ih (max m0 (s a)))

theorem foldl_max_mem_le (s : Nat → Nat) :
    ∀ (l : List Nat) (m0 : Nat) (t : Nat), t ∈ l →
      s t ≤ l.foldl (fun m t => max m (s t)) m0 := by
  intro l
  induction l with
  | nil =>
    intro m0 t ht
    cases ht
  | cons a rest ih =>
    intro m0 t ht
    rw [List.foldl_cons]
    rcases List.mem_cons.mp ht with rfl | ht'
    · exact le_trans (Nat.le_max_right m0 (s t)) (foldl_max_init_le s rest _)
    · exact ih _ t ht'

theorem foldl_max_of_le (s : Nat → Nat) :
    ∀ (l : List Nat) (m0 : Nat), (∀ t ∈ l, s t ≤ m0) →
      l.foldl (fun m t => max m (s t)) m0 = m0 := by
  intro l
  induction l with
  | nil =>
    intro m0 _
    rfl
  | cons a rest ih =>
    intro m0 h
    rw [List.foldl_cons, Nat.max_eq_left (h a (List.mem_cons_self _ _))]
    exact ih m0 (fun t ht => h t (List.mem_cons_of_mem _ ht))

theorem foldl_max_exists (s : Nat → Nat) :
    ∀ (l : List Nat) (m0 : Nat), l.foldl (fun m t => max m (s t)) m0 = m0 ∨
      ∃ t ∈ l, l.foldl (fun m t => max m (s t)) m0 = s t := by
  intro l
  induction l with
  | nil =>
    intro m0
    exact Or.inl rfl
  | cons a rest ih =>
    intro m0
    rw [List.foldl_cons]
    rcases ih (max m0 (s a)) with h | ⟨t, ht, he⟩
    · rcases Nat.le_total (s a) m0 with hle | hle
      · rw [Nat.max_eq_left hle] at h ⊢
        exact Or.inl h
      · rw [Nat.max_eq_right hle] at h ⊢
        exact Or.inr ⟨a, List.mem_cons_self _ _, h⟩
    · exact Or.inr ⟨t, List.mem_cons_of_mem _ ht, he⟩

theorem fbGo_maxc (lf : LogFilters) (words : List String) :
    ∀ (l : List Nat) (best : Int) (maxc : Nat) (ties : List Nat),
      (fbGo lf words l best maxc ties).2.1 =
        l.foldl (fun m t => max m (count_consequent_matches lf words t)) maxc := by
  intro l
  induction l with
  | nil =>
    intro best maxc ties
    rfl
  | cons a rest ih =>
    intro best maxc ties
    rw [List.foldl_cons, fbGo]
    by_cases h1 : count_consequent_matches lf words a > maxc
    · rw [if_pos h1, ih, Nat.max_eq_right (le_of_lt h1)]
    · rw [if_neg h1]
      by_cases h2 : count_consequent_matches lf words a = maxc
      · rw [if_pos h2, ih, Nat.max_eq_left (by omega)]
      · rw [if_neg h2, ih, Nat.max_eq_left (by omega)]

theorem fbGo_best_of_le (lf : LogFilters) (words : List String) :
    ∀ (l : List Nat) (best : Int) (maxc : Nat) (ties : List Nat),
      (∀ t ∈ l, count_consequent_matches lf words t ≤ maxc) →
      (fbGo lf words l best maxc ties).1 = best := by
  intro l
  induction l with
  | nil =>
    intro best maxc ties _
    rfl
  | cons a rest ih =>
    intro best maxc ties h
    rw [fbGo]
    rw [if_neg (by have := h a (List.mem_cons_self _ _); omega)]
    by_cases h2 : count_consequent_matches lf words a = maxc
    · rw [if_pos h2]
      exact ih best maxc _ (fun t ht => h t (List.mem_cons_of_mem _ ht))
    · rw [if_neg h2]
      exact ih best maxc _ (fun t ht => h t (List.mem_cons_of_mem _ ht))

theorem fbGo_best_first (lf : LogFilters) (words : List String) :
    ∀ (l : List Nat), l.Pairwise (· < ·) →
      ∀ (best : Int) (maxc : Nat) (ties : List Nat),
        (∃ t ∈ l, maxc < count_consequent_matches lf words t) →
        ∃ t ∈ l, (fbGo lf words l best maxc ties).1 = (t : Int) ∧
          count_consequent_matches lf words t = (fbGo lf words l best maxc ties).2.1 ∧
          ∀ u ∈ l, count_consequent_matches lf words u =
            (fbGo lf words l best maxc ties).2.1 → t ≤ u := by
  intro l
  induction l with
  | nil =>
    rintro _ best maxc ties ⟨t, ht, -⟩
    cases ht
  | cons a rest ih =>
    intro hpw best maxc ties hex
    rw [List.pairwise_cons] at hpw
    rw [fbGo]
    by_cases h1 : count_consequent_matches lf words a > maxc
    · rw [if_pos h1]
      by_cases h2 : ∀ u ∈ rest, count_consequent_matches lf words u ≤
          count_consequent_matches lf words a
      · refine ⟨a, List.mem_cons_self _ _,
          fbGo_best_of_le lf words rest _ _ _ h2, ?_, ?_⟩
        · rw [fbGo_maxc, foldl_max_of_le _ rest _ h2]
        · intro u hu _
          rcases List.mem_cons.mp hu with rfl | hu'
          · exact le_rfl
          · exact le_of_lt (hpw.1 u hu')
      · push_neg at h2
        obtain ⟨t, htr, hteq, htscore, htmin⟩ := ih hpw.2 (a : Int)
          (count_consequent_matches lf words a) [] h2
        refine ⟨t, List.mem_cons_of_mem _ htr, hteq, htscore, ?_⟩
        intro u hu hscore
        rcases List.mem_cons.mp hu with rfl | hu'
        · exfalso
          obtain ⟨v, hv, hvgt⟩ := h2
          have hvle := foldl_max_mem_le
            (count_consequent_matches lf words) rest
            (count_consequent_matches lf words u) v hv
          rw [fbGo_maxc] at hscore
          omega
        · exact htmin u hu' hscore
    · rw [if_neg h1]
      have hex' : ∃ u ∈ rest, maxc < count_consequent_matches lf words u := by
        obtain ⟨t, ht, hts⟩ := hex
        rcases List.mem_cons.mp ht with rfl | ht'
        · exact absurd hts (by omega)
        · exact ⟨t, ht', hts⟩
      have hafter : ∀ (ties' : List Nat),
          ∃ t ∈ a :: rest, (fbGo lf words rest best maxc ties').1 = (t : Int) ∧
            count_consequent_matches lf words t =
              (fbGo lf words rest best maxc ties').2.1 ∧
            ∀ u ∈ a :: rest, count_consequent_matches lf words u =
              (fbGo lf words rest best maxc ties').2.1 → t ≤ u := by
        intro ties'
        obtain ⟨t, htr, hteq, htscore, htmin⟩ := ih hpw.2 best maxc ties' hex'
        refine ⟨t, List.mem_cons_of_mem _ htr, hteq, htscore, ?_⟩
        intro u hu hscore
        rcases List.mem_cons.mp hu with rfl | hu'
        · exfalso
          obtain ⟨v, hv, hvgt⟩ := hex'
          have hvle := foldl_max_mem_le
            (count_consequent_matches lf words) rest
            maxc v hv
          rw [fbGo_maxc] at hscore
          omega
        · exact htmin u hu' hscore
      by_cases h2 : count_consequent_matches lf words a = maxc
      · rw [if_pos h2]
        exact hafter (ties ++ [a])
      · rw [if_neg h2]
        exact hafter ties

/-! ## A candidate's score is positive under the containment invariant -/

theorem specColGo_isSome_of (marker w : String) :
    ∀ (l : List (List String)) (c : Nat), (∃ col ∈ l, w ∈ col ∧ w ≠ marker) →
      ∃ m, specColGo marker w l c = some m := by
  intro l
  induction l with
  | nil =>
    rintro c ⟨col, hcol, -⟩
    cases hcol
  | cons col rest ih =>
    rintro c ⟨col', hcol', hw⟩
    simp only [specColGo]
    by_cases hc : w ∈ col ∧ w ≠ marker
    · rw [if_pos hc]
      exact ⟨c, rfl⟩
    · rw [if_neg hc]
      apply ih (c + 1)
      rcases List.mem_cons.mp hcol' with rfl | h
      · exact absurd hw hc
      · exact ⟨col', h, hw⟩

theorem specGreedyMatched_pos (marker : String) (f : List (List String)) :
    ∀ (ws : List String), (∃ w ∈ ws, ∃ col ∈ f, w ∈ col ∧ w ≠ marker) →
      1 ≤ specGreedyMatched marker f ws 0 := by
  intro ws
  induction ws with
  | nil =>
    rintro ⟨w, hw, -⟩
    cases hw
  | cons w0 rest ih =>
    rintro ⟨w, hw, col, hcol, hwc, hwm⟩
    simp only [specGreedyMatched]
    rcases hfind : specFindColumn marker f w0 0 with _ | m
    · rcases List.mem_cons.mp hw with rfl | hw'
      · obtain ⟨m, hm⟩ := specColGo_isSome_of marker w f 0 ⟨col, hcol, hwc, hwm⟩
        unfold specFindColumn at hfind
        rw [List.drop_zero, hm] at hfind
        cases hfind
      · dsimp only
        exact ih ⟨w, hw', col, hcol, hwc, hwm⟩
    · dsimp only
      omega

theorem accept_max_pos (lf : LogFilters) (hinv : ReverseIndexInv lf)
    (words : List String) (hcands : specCandidates lf words ≠ [])
    (haccept : (words.length : Int) - (lf.max_allowed_new_alternatives : Int) ≤
      (specMaxScore lf words : Int)) :
    1 ≤ specMaxScore lf words := by
  by_cases hnk : lf.max_allowed_new_alternatives < words.length
  · omega
  · obtain ⟨t, ht⟩ := List.exists_mem_of_ne_nil _ hcands
    obtain ⟨htL, -⟩ := (mem_specCandidates lf words t).mp ht
    have hwex : ∃ w ∈ words, t ∈ hashGet lf.words_hash w := by
      unfold get_sorted_filter_indexes_containing_words at htL
      rw [List.mem_insertionSort] at htL
      rcases (mem_foldl_append (hashGet lf.words_hash) words [] t).mp htL with h | h
      · cases h
      · exact h
    obtain ⟨w, hww, hwb⟩ := hwex
    have hwm : w ≠ lf.denote_optional := by
      intro he
      rw [he, hinv.2] at hwb
      cases hwb
    obtain ⟨f, hf, col, hcol, hwcol⟩ := (hinv.1 w hwm t).mp hwb
    have hge : 1 ≤ specGreedyMatched lf.denote_optional f words 0 :=
      specGreedyMatched_pos lf.denote_optional f words
        ⟨w, hww, col, hcol, hwcol, hwm⟩
    have hscore : 1 ≤ specConsequentMatches lf words t := by
      unfold specConsequentMatches
      dsimp only
      rw [hf, Option.getD_some]
      rw [if_neg (by omega)]
      exact hge
    have hle : specConsequentMatches lf words t ≤ specMaxScore lf words := by
      unfold specMaxScore
      rw [List.foldl_map]
      exact foldl_max_mem_le _ _ _ t ht
    omega

/-! ## Learning from an empty store: utilities -/

theorem set_zero_self {α : Type} (l : List α) (x : α) (h : l[0]? = some x) :
    l.set 0 x = l := by
  cases l with
  | nil => cases h
  | cons a t =>
    have : a = x := by
      rw [List.getElem?_cons_zero] at h
      exact Option.some.inj h
    rw [← this]
    rfl

theorem mapIdxFrom_id (g : Nat → List String → List String)
    (h : ∀ c col, g c col = col) :
    ∀ (s : Nat) (l : List (List String)), mapIdxFrom g s l = l := by
  intro s l
  induction l generalizing s with
  | nil => rfl
  | cons col rest ih =>
    show g s col :: mapIdxFrom g (s + 1) rest = col :: rest
    rw [h s col, ih (s + 1)]

theorem filter_ne_empty_self (ws : List String) (h : ∀ w ∈ ws, w ≠ "") :
    ws.filter (fun w => decide (w ≠ "")) = ws := by
  apply List.filter_eq_self.mpr
  intro w hw
  simpa using h w hw

theorem lineToWordsGo_subset (b : Bool) (k : Nat) :
    ∀ (l : List String) (i : Nat) (w : String), w ∈ lineToWordsGo b k l i → w ∈ l := by
  intro l
  induction l with
  | nil =>
    intro i w hw
    cases hw
  | cons x rest ih =>
    intro i w hw
    unfold lineToWordsGo at hw
    split at hw
    · exact List.mem_cons_of_mem _ (ih i w hw)
    · split at hw
      · exact List.mem_cons_of_mem _ (ih (i + 1) w hw)
      · rcases List.mem_cons.mp hw with rfl | hw'
        · exact List.mem_cons_self _ _
        · exact List.mem_cons_of_mem _ (ih i w hw')

theorem line_to_words_ne_empty (lf : LogFilters) (line : String) :
    ∀ w ∈ line_to_words lf line, w ≠ "" := by
  intro w hw
  have hsplit : w ∈ line_split line :=
    lineToWordsGo_subset _ _ _ 0 w hw
  unfold line_split at hsplit
  rw [List.mem_filter] at hsplit
  simpa using hsplit.2

theorem mem_hashSet (h : List (String × List Nat)) (w : String) (b : List Nat) :
    ∀ p ∈ hashSet h w b, p = (w, b) ∨ p ∈ h := by
  induction h with
  | nil =>
    intro p hp
    rcases List.mem_singleton.mp hp with rfl
    exact Or.inl rfl
  | cons q rest ih =>
    intro p hp
    unfold hashSet at hp
    split at hp
    · rcases List.mem_cons.mp hp with rfl | hp'
      · exact Or.inl rfl
      · exact Or.inr (List.mem_cons_of_mem _ hp')
    · rcases List.mem_cons.mp hp with rfl | hp'
      · exact Or.inr (List.mem_cons_self _ _)
      · rcases ih p hp' with h1 | h1
        · exact Or.inl h1
        · exact Or.inr (List.mem_cons_of_mem _ h1)

theorem enumFrom_append_drop {α : Type} :
    ∀ (pre : List α) (k : Nat) (rest : List α),
      ((pre ++ rest).enumFrom k).drop pre.length = rest.enumFrom (k + pre.length) := by
  intro pre
  induction pre with
  | nil =>
    intro k rest
    rw [List.nil_append, List.length_nil, List.drop_zero, Nat.add_zero]
  | cons a pre' ih =>
    intro k rest
    rw [List.cons_append]
    show (List.enumFrom k (a :: (pre' ++ rest))).drop (pre'.length + 1) =
      rest.enumFrom (k + (pre'.length + 1))
    rw [List.enumFrom_cons, List.drop_succ_cons, ih (k + 1)]
    have : k + 1 + pre'.length = k + (pre'.length + 1) := by omega
    rw [this]

theorem foldl_update_hash_head_config (L : List (List String)) (e : Nat)
    (s : LogFilters) :
    (L.foldl (fun acc col => update_hash acc (col.headD "") e) s).max_allowed_new_alternatives
        = s.max_allowed_new_alternatives ∧
    (L.foldl (fun acc col => update_hash acc (col.headD "") e) s).denote_optional
        = s.denote_optional ∧
    (L.foldl (fun acc col => update_hash acc (col.headD "") e) s).ignore_numeric_words
        = s.ignore_numeric_words ∧
    (L.foldl (fun acc col => update_hash acc (col.headD "") e) s).ignore_first_columns
        = s.ignore_first_columns := by
  induction L generalizing s with
  | nil => exact ⟨rfl, rfl, rfl, rfl⟩
  | cons c rest ih =>
    rw [List.foldl_cons]
    obtain ⟨h1, h2, h3, h4⟩ := ih (update_hash s (c.headD "") e)
    obtain ⟨g1, g2, g3, g4⟩ := update_hash_config s (c.headD "") e
    exact ⟨h1.trans g1, h2.trans g2, h3.trans g3, h4.trans g4⟩

theorem update_hash_step_diag (acc : LogFilters) (F : List (List String))
    (hfl : acc.filters = [F]) (w : String) (hwF : [w] ∈ F)
    (hE : ∀ p ∈ acc.words_hash, p.2 = [] ∨ p.2 = [0]) :
    (∀ p ∈ (update_hash acc w 0).words_hash, p.2 = [] ∨ p.2 = [0]) ∧
    hashGet (update_hash acc w 0).words_hash w = [0] ∧
    (∀ w', w' ≠ w →
      hashGet (update_hash acc w 0).words_hash w' = hashGet acc.words_hash w') := by
  have hword : is_word_in_filter acc w 0 = true := by
    unfold is_word_in_filter
    rw [hfl]
    show F.any (fun col => decide (w ∈ col)) = true
    exact List.any_eq_true.mpr ⟨[w], hwF, by simp⟩
  unfold update_hash
  rw [if_pos hword]
  rcases hfind : acc.words_hash.find? (fun p => decide (p.1 = w)) with _ | p
  · rw [hfind]
    dsimp only
    refine ⟨?_, ?_, ?_⟩
    · intro p hp
      rcases List.mem_append.mp hp with h1 | h1
      · exact hE p h1
      · rcases List.mem_singleton.mp h1 with rfl
        exact Or.inr rfl
    · rw [hashGet_append_single_absent acc.words_hash w [0] hfind, if_pos rfl]
    · intro w' hw'
      rw [hashGet_append_single_absent acc.words_hash w [0] hfind, if_neg hw']
  · rw [hfind]
    dsimp only
    have hp1 : p.1 = w := by simpa using List.find?_some hfind
    have hp2 : hashGet acc.words_hash w = p.2 := by
      unfold hashGet
      rw [hfind]
    have hpmem : p ∈ acc.words_hash := List.mem_of_find?_eq_some hfind
    rcases hE p hpmem with h0 | h0
    · rw [h0]
      rw [if_neg (List.not_mem_nil 0)]
      have hsort : List.insertionSort (· ≤ ·) (([] : List Nat) ++ [0]) = [0] := rfl
      rw [hsort]
      refine ⟨?_, ?_, ?_⟩
      · intro q hq
        rcases mem_hashSet acc.words_hash w [0] q hq with rfl | hq'
        · exact Or.inr rfl
        · exact hE q hq'
      · rw [hashGet_hashSet, if_pos rfl]
      · intro w' hw'
        rw [hashGet_hashSet, if_neg hw']
    · rw [h0, if_pos (List.mem_singleton.mpr rfl)]
      refine ⟨hE, ?_, fun w' _ => rfl⟩
      rw [hp2, h0]

theorem add_fold_diag (F : List (List String)) :
    ∀ (ws' : List String) (acc : LogFilters),
      acc.filters = [F] → (∀ w ∈ ws', [w] ∈ F) →
      (∀ p ∈ acc.words_hash, p.2 = [] ∨ p.2 = [0]) →
      (((ws'.map (fun w => [w])).foldl
          (fun a col => update_hash a (col.headD "") 0) acc).filters = [F]) ∧
      (∀ p ∈ ((ws'.map (fun w => [w])).foldl
          (fun a col => update_hash a (col.headD "") 0) acc).words_hash,
        p.2 = [] ∨ p.2 = [0]) ∧
      (∀ w', hashGet acc.words_hash w' = [0] →
        hashGet ((ws'.map (fun w => [w])).foldl
          (fun a col => update_hash a (col.headD "") 0) acc).words_hash w' = [0]) ∧
      (∀ w ∈ ws', hashGet ((ws'.map (fun w => [w])).foldl
          (fun a col => update_hash a (col.headD "") 0) acc).words_hash w = [0]) := by
  intro ws'
  induction ws' with
  | nil =>
    intro acc hfl _ hE
    exact ⟨hfl, hE, fun _ h => h, fun w hw => absurd hw (List.not_mem_nil w)⟩
  | cons w rest ih =>
    intro acc hfl hwF hE
    rw [List.map_cons, List.foldl_cons]
    obtain ⟨hE1, hget1, hpres1⟩ := update_hash_step_diag acc F hfl w
      (hwF w (List.mem_cons_self _ _)) hE
    have hfl1 : (update_hash acc w 0).filters = [F] := by
      rw [update_hash_filters, hfl]
    obtain ⟨ih1, ih2, ih3, ih4⟩ := ih (update_hash acc w 0) hfl1
      (fun u hu => hwF u (List.mem_cons_of_mem _ hu)) hE1
    refine ⟨ih1, ih2, ?_, ?_⟩
    · intro w' hw'
      by_cases hww : w' = w
      · subst hww
        exact ih3 w' hget1
      · exact ih3 w' ((hpres1 w' hww).trans hw')
    · intro u hu
      rcases List.mem_cons.mp hu with rfl | hu'
      · exact ih3 u hget1
      · exact ih4 u hu'

theorem add_filter_fresh (lf : LogFilters) (hfil : lf.filters = [])
    (hhash : lf.words_hash = []) (ws : List String) (hne : ∀ w ∈ ws, w ≠ "")
    (hws : ws ≠ []) :
    (add_filter lf ws).filters = [ws.map (fun w => [w])] ∧
    (∀ w ∈ ws, hashGet (add_filter lf ws).words_hash w = [0]) ∧
    (∀ p ∈ (add_filter lf ws).words_hash, p.2 = [] ∨ p.2 = [0]) ∧
    (add_filter lf ws).max_allowed_new_alternatives = lf.max_allowed_new_alternatives ∧
    (add_filter lf ws).denote_optional = lf.denote_optional ∧
    (add_filter lf ws).ignore_numeric_words = lf.ignore_numeric_words ∧
    (add_filter lf ws).ignore_first_columns = lf.ignore_first_columns := by
  unfold add_filter
  rw [filter_ne_empty_self ws hne, hfil]
  dsimp only
  rw [if_neg (by simpa using hws)]
  have hbase : ({ lf with filters := [] ++ [ws.map (fun w => [w])] } : LogFilters).filters
      = [ws.map (fun w => [w])] := by
    rw [List.nil_append]
  obtain ⟨h1, h2, h3, h4⟩ := add_fold_diag (ws.map (fun w => [w])) ws
    { lf with filters := [] ++ [ws.map (fun w => [w])] } hbase
    (fun w hw => List.mem_map_of_mem _ hw)
    (by rw [hhash]; intro p hp; cases hp)
  obtain ⟨c1, c2, c3, c4⟩ := foldl_update_hash_head_config (ws.map (fun w => [w])) 0
    { lf with filters := [] ++ [ws.map (fun w => [w])] }
  exact ⟨h1, h4, h2, c1, c2, c3, c4⟩

/-- On a store whose template `0` is exactly the word list as singleton
columns, searching word `i` of the line from column `i` finds column `i`. -/
theorem get_word_index_diag (lf' : LogFilters) (ws : List String)
    (hfil : lf'.filters[0]? = some (ws.map (fun w => [w])))
    (hhash : ∀ w ∈ ws, 0 ∈ hashGet lf'.words_hash w)
    (hne : ∀ w ∈ ws, w ≠ "")
    (pre suf : List String) (w : String) (heq : ws = pre ++ w :: suf) :
    get_word_index_in_filter lf' w 0 pre.length = (pre.length : Int) := by
  have hwmem : w ∈ ws := by
    rw [heq]
    exact List.mem_append_right _ (List.mem_cons_self _ _)
  have hlength : ws.length = pre.length + suf.length + 1 := by
    rw [heq]
    simp
    omega
  unfold get_word_index_in_filter
  rw [if_neg (hne w hwmem), if_neg (fun hcon => hcon (hhash w hwmem)), hfil]
  dsimp only
  have hmlen : (ws.map (fun w => [w])).length = ws.length := List.length_map _ _
  rw [if_neg (by
    rintro (hc | hc)
    · rw [hc] at hmlen
      simp at hmlen
      omega
    · omega)]
  unfold findColFrom
  have hdrop : (ws.map (fun w => [w])).drop pre.length =
      [w] :: suf.map (fun w => [w]) := by
    rw [heq, List.map_append, List.map_cons]
    have hplen : pre.length = (pre.map (fun w => [w])).length :=
      (List.length_map _ _).symm
    rw [hplen, List.drop_left]
  rw [hdrop, findColGo, if_pos (List.mem_singleton.mpr rfl)]

theorem earliestGo_keep (lf' : LogFilters) (fi s : Nat) :
    ∀ (l : List (Nat × String)) (fmw fmf : Int), 0 ≤ fmf → fmf ≤ (s : Int) →
      earliestGo lf' fi s l fmw fmf = (fmw, fmf) := by
  intro l
  induction l with
  | nil =>
    intro fmw fmf _ _
    rfl
  | cons p rest ih =>
    intro fmw fmf h0 hs
    obtain ⟨wi, w⟩ := p
    rw [earliestGo]
    rw [if_neg (by
      rintro ⟨hge, hc | hc⟩
      · omega
      · rcases get_word_index_bounds lf' w fi s with hb | ⟨f, -, hb1, -⟩ <;> omega)]
    exact ih fmw fmf h0 hs

theorem earliest_diag (lf' : LogFilters) (ws : List String)
    (hfil : lf'.filters[0]? = some (ws.map (fun w => [w])))
    (hhash : ∀ w ∈ ws, 0 ∈ hashGet lf'.words_hash w)
    (hne : ∀ w ∈ ws, w ≠ "")
    (pre suf : List String) (w : String) (heq : ws = pre ++ w :: suf) :
    get_indexes_of_earliest_matching_word lf' ws 0 pre.length pre.length =
      ((pre.length : Int), (pre.length : Int)) := by
  have hlength : ws.length = pre.length + suf.length + 1 := by
    rw [heq]
    simp
    omega
  unfold get_indexes_of_earliest_matching_word
  rw [hfil]
  rw [if_neg (by
    rintro (hc | hc)
    · omega
    · cases hc)]
  simp only [Option.getD_some]
  rw [if_neg (by
    have := List.length_map ws (fun w => [w])
    omega)]
  have hss : (((pre.length : Nat) : Int) +
      (((pre.length : Nat) : Int) - ((pre.length : Nat) : Int))).toNat = pre.length := by
    omega
  rw [hss]
  have henum : ws.enum.drop pre.length =
      (pre.length, w) :: suf.enumFrom (pre.length + 1) := by
    show (ws.enumFrom 0).drop pre.length = _
    rw [heq, enumFrom_append_drop pre 0 (w :: suf), Nat.zero_add,
      List.enumFrom_cons]
  rw [henum, earliestGo]
  rw [get_word_index_diag lf' ws hfil hhash hne pre suf w heq]
  rw [if_pos ⟨by omega, Or.inl rfl⟩]
  exact earliestGo_keep lf' 0 pre.length _ _ _ (by omega) le_rfl

/-- On a store whose template `0` is the line as singleton columns, one
normalisation pass from matching offsets `(i, i)` is a no-op reporting the
boundary `(i, i)`. -/
theorem normalise_diag (lf' : LogFilters) (ws : List String)
    (hfil : lf'.filters[0]? = some (ws.map (fun w => [w])))
    (hhash : ∀ w ∈ ws, 0 ∈ hashGet lf'.words_hash w)
    (hne : ∀ w ∈ ws, w ≠ "") (i : Nat) (hi : i < ws.length) :
    normalise_lengths_before_first_match lf' ws 0 i i =
      some (lf', (i : Int), (i : Int)) := by
  obtain ⟨pre, suf, w, heq, hplen⟩ :
      ∃ pre suf w, ws = pre ++ w :: suf ∧ pre.length = i := by
    refine ⟨ws.take i, ws.drop (i + 1), ws[i], ?_, by
      rw [List.length_take]
      omega⟩
    conv_lhs => rw [← List.take_append_drop i ws]
    rw [List.drop_eq_getElem_cons hi]
  subst hplen
  unfold normalise_lengths_before_first_match
  rw [earliest_diag lf' ws hfil hhash hne pre suf w heq]
  dsimp only
  rw [if_neg (by
    rintro (hc | hc) <;> omega)]
  rw [hfil]
  dsimp only
  rw [if_neg (by omega)]
  have hb : (((pre.length : Nat) : Int) + ((pre.length : Nat) : Int) -
      ((pre.length : Nat) : Int) -
      (((pre.length : Nat) : Int) - ((pre.length : Nat) : Int))).toNat =
      pre.length := by
    omega
  rw [hb]
  rw [mapIdxFrom_id _ (fun c col => by
    rw [if_neg (by omega)]) 0]
  rw [mapIdxFrom_id _ (fun c col => by
    rw [if_neg (by omega)]) 0]
  have htn : ((pre.length : Int)).toNat = pre.length := by omega
  rw [htn]
  rw [if_pos (by omega)]
  rw [set_zero_self lf'.filters _ hfil]
  have htake : (ws.drop pre.length).take (pre.length - pre.length) = [] := by
    rw [Nat.sub_self, List.take_zero]
  rw [htake, List.foldl_nil]

theorem updLoop_diag (lf' : LogFilters) (ws : List String)
    (hfil : lf'.filters[0]? = some (ws.map (fun w => [w])))
    (hhash : ∀ w ∈ ws, 0 ∈ hashGet lf'.words_hash w)
    (hne : ∀ w ∈ ws, w ≠ "") :
    ∀ (fuel i : Nat), i < ws.length → ws.length ≤ i + fuel →
      updLoop ws 0 fuel lf' (i : Int) (i : Int) =
        some (lf', (ws.length : Int) - 1, (ws.length : Int) - 1) := by
  intro fuel
  induction fuel with
  | zero =>
    intro i h1 h2
    omega
  | succ fuel ih =>
    intro i h1 h2
    rw [updLoop]
    rw [if_pos ⟨by omega, by omega, by omega⟩]
    have htoNat : ((i : Int)).toNat = i := by omega
    rw [htoNat, normalise_diag lf' ws hfil hhash hne i h1]
    dsimp only
    rw [if_neg (by
      rintro (hc | hc) <;> omega)]
    rw [if_neg (by
      rintro (hc | hc) <;> exact hc rfl)]
    by_cases hlast : (i : Int) = (ws.length : Int) - 1
    · rw [if_pos hlast, hlast]
    · rw [if_neg hlast, hfil]
      dsimp only
      rw [if_neg (by
        have := List.length_map ws (fun w => [w])
        omega)]
      have hcast : ((i : Int) + 1) = (((i + 1 : Nat)) : Int) := by omega
      rw [hcast]
      exact ih (i + 1) (by omega) (by omega)

theorem ccmGo_diag (lf' : LogFilters) (ws : List String)
    (hfil : lf'.filters[0]? = some (ws.map (fun w => [w])))
    (hhash : ∀ w ∈ ws, 0 ∈ hashGet lf'.words_hash w)
    (hne : ∀ w ∈ ws, w ≠ "") (budget : Nat) :
    ∀ (suf pre : List String), ws = pre ++ suf →
      ∀ (alts : Nat),
        ccmGo lf' 0 budget suf ((pre.length : Int) - 1) pre.length pre.length alts =
          pre.length + suf.length := by
  intro suf
  induction suf with
  | nil =>
    intro pre heq alts
    rw [ccmGo]
    simp
  | cons w suf' ih =>
    intro pre heq alts
    rw [ccmGo]
    dsimp only
    have hmi : get_word_index_in_filter lf' w 0 ((pre.length : Int) - 1 + 1).toNat =
        (pre.length : Int) := by
      have harg : ((pre.length : Int) - 1 + 1).toNat = pre.length := by omega
      rw [harg]
      exact get_word_index_diag lf' ws hfil hhash hne pre suf' w heq
    rw [hmi]
    rw [if_pos ⟨by omega, by omega⟩]
    rw [if_pos (by omega)]
    have heq' : ws = (pre ++ [w]) ++ suf' := by
      rw [heq, List.append_assoc, List.singleton_append]
    have hrec := ih (pre ++ [w]) heq' alts
    rw [List.length_append, List.length_singleton] at hrec
    have hlast : (((pre.length + 1 : Nat)) : Int) - 1 = (pre.length : Int) := by omega
    rw [hlast] at hrec
    rw [hrec, List.length_cons]
    omega

theorem count_diag (lf' : LogFilters) (ws : List String)
    (hfil : lf'.filters[0]? = some (ws.map (fun w => [w])))
    (hhash : ∀ w ∈ ws, 0 ∈ hashGet lf'.words_hash w)
    (hne : ∀ w ∈ ws, w ≠ "") (h0 : 0 < lf'.filters.length) (hws : ws ≠ []) :
    count_consequent_matches lf' ws 0 = ws.length := by
  unfold count_consequent_matches
  rw [if_neg (by
    rintro (hc | hc)
    · omega
    · exact hws hc)]
  dsimp only
  have hstart := ccmGo_diag lf' ws hfil hhash hne
    (lf'.max_allowed_new_alternatives +
      (if (lf'.filters[0]?.getD []).length < ws.length then
        ws.length - (lf'.filters[0]?.getD []).length else 0)) ws [] rfl 0
  simp only [List.length_nil, Nat.cast_zero, zero_sub, Nat.zero_add] at hstart
  exact hstart

theorem sorted_replicate_zero (n : Nat) :
    (List.replicate n (0 : Nat)).Sorted (· ≤ ·) := by
  induction n with
  | zero => exact List.sorted_nil
  | succ n ih =>
    rw [List.replicate_succ, List.sorted_cons]
    exact ⟨fun b _ => Nat.zero_le b, ih⟩

theorem concat_diag (h : List (String × List Nat)) :
    ∀ (ws : List String) (acc : List Nat), (∀ w ∈ ws, hashGet h w = [0]) →
      ws.foldl (fun acc w => acc ++ hashGet h w) acc =
        acc ++ List.replicate ws.length 0 := by
  intro ws
  induction ws with
  | nil =>
    intro acc _
    simp
  | cons w rest ih =>
    intro acc hget
    rw [List.foldl_cons, hget w (List.mem_cons_self _ _),
      ih (acc ++ [0]) (fun u hu => hget u (List.mem_cons_of_mem _ hu)),
      List.append_assoc, List.singleton_append, List.length_cons,
      ← List.replicate_succ]

theorem selector_diag (lf' : LogFilters) (ws : List String)
    (hfil : lf'.filters[0]? = some (ws.map (fun w => [w])))
    (hhash : ∀ w ∈ ws, hashGet lf'.words_hash w = [0])
    (hws : ws ≠ []) :
    get_filter_indexes_with_min_req_matches lf' ws = some [0] := by
  unfold get_filter_indexes_with_min_req_matches
  have hconc : get_sorted_filter_indexes_containing_words lf' ws =
      List.replicate ws.length 0 := by
    unfold get_sorted_filter_indexes_containing_words
    rw [concat_diag lf'.words_hash ws [] hhash, List.nil_append]
    exact List.Sorted.insertionSort_eq (sorted_replicate_zero ws.length)
  rw [hconc]
  have hsplit : List.replicate ws.length 0 = List.replicate ws.length 0 ++ [] :=
    (List.append_nil _).symm
  rw [hsplit, selGo_block lf' ws.length 0 (ws.map (fun w => [w])) hfil []
    (-1) (-1) (by decide) (by decide) ws.length (List.length_pos.mpr hws) 0 0 []]
  rw [if_pos ⟨by omega, by
    have := List.length_map ws (fun w => [w])
    omega⟩]
  rfl

theorem find_best_diag (lf' : LogFilters) (ws : List String)
    (hfil : lf'.filters[0]? = some (ws.map (fun w => [w])))
    (hhash : ∀ w ∈ ws, hashGet lf'.words_hash w = [0])
    (hne : ∀ w ∈ ws, w ≠ "") (h0 : 0 < lf'.filters.length) (hws : ws ≠ []) :
    find_best_matching_filter_index lf' ws = some 0 := by
  unfold find_best_matching_filter_index
  rw [if_neg (by
    rintro (hc | hc)
    · rw [hc] at h0
      simp at h0
    · exact hws hc)]
  rw [selector_diag lf' ws hfil hhash hws]
  have hhash' : ∀ w ∈ ws, 0 ∈ hashGet lf'.words_hash w := by
    intro w hw
    rw [hhash w hw]
    exact List.mem_singleton.mpr rfl
  dsimp only
  rw [fbGo]
  rw [count_diag lf' ws hfil hhash' hne h0 hws]
  rw [if_pos (List.length_pos.mpr hws)]
  rw [fbGo]
  dsimp only
  rw [if_pos (by omega)]
  rw [if_neg (by
    rintro ⟨hc, -⟩
    simp at hc)]
  rfl

theorem setFilters_self (a : LogFilters) (fl : List (List (List String)))
    (h : fl = a.filters) : ({ a with filters := fl } : LogFilters) = a := by
  rw [h]

theorem update_filter_diag (lf' : LogFilters) (ws : List String)
    (hfilters : lf'.filters = [ws.map (fun w => [w])])
    (hhash : ∀ w ∈ ws, 0 ∈ hashGet lf'.words_hash w)
    (hne : ∀ w ∈ ws, w ≠ "") (hws : ws ≠ []) :
    update_filter lf' ws 0 = some lf' := by
  have hfil : lf'.filters[0]? = some (ws.map (fun w => [w])) := by
    rw [hfilters]
    rfl
  have hn : 0 < ws.length := List.length_pos.mpr hws
  unfold update_filter
  rw [normalise_diag lf' ws hfil hhash hne 0 hn]
  dsimp only
  rw [updLoop_diag lf' ws hfil hhash hne _ 0 hn (by
    have hX : 2 ≤ (lf'.filters[0]?.getD []).length + ws.length + 2 := by omega
    have := Nat.le_mul_of_pos_right (ws.length + 1) (show 0 <
      (lf'.filters[0]?.getD []).length + ws.length + 2 by omega)
    omega)]
  dsimp only
  rw [if_pos ⟨by omega, by omega⟩]
  rw [hfil]
  dsimp only
  rw [if_neg (by
    rintro ⟨hc, -⟩
    have := List.length_map ws (fun w => [w])
    omega)]
  rw [if_pos (by omega)]
  have hs3f : ({ lf' with filters := lf'.filters.set 0 (ws.map (fun w => [w])).reverse } : LogFilters).filters = [(ws.map (fun w => [w])).reverse] := by
    rw [hfilters]
    rfl
  have hfil3 : ({ lf' with filters := lf'.filters.set 0 (ws.map (fun w => [w])).reverse } : LogFilters).filters[0]? = some (ws.reverse.map (fun w => [w])) := by
    rw [hs3f, List.getElem?_cons_zero, List.map_reverse]
  have hhash3 : ∀ w ∈ ws.reverse, 0 ∈ hashGet ({ lf' with filters := lf'.filters.set 0 (ws.map (fun w => [w])).reverse } : LogFilters).words_hash w := by
    intro w hw
    exact hhash w (List.mem_reverse.mp hw)
  have hne3 : ∀ w ∈ ws.reverse, w ≠ "" :=
    fun w hw => hne w (List.mem_reverse.mp hw)
  have hn3 : 0 < ws.reverse.length := by
    rw [List.length_reverse]
    exact hn
  rw [normalise_diag _ ws.reverse hfil3 hhash3 hne3 0 hn3]
  dsimp only
  rw [hfil3]
  simp only [Option.getD_some, List.map_reverse, List.reverse_reverse]
  have hff : (lf'.filters.set 0 (List.map (fun w => [w]) ws).reverse).set 0
      (List.map (fun w => [w]) ws) = lf'.filters := by
    rw [hfilters]
    rfl
  rw [hff]

theorem learn_line_fresh (lf : LogFilters) (line : String)
    (hfil : lf.filters = []) :
    learn_line lf line = some (add_filter lf (line_to_words lf line)) := by
  unfold learn_line
  dsimp only
  have hfb : find_best_matching_filter_index lf (line_to_words lf line) =
      some (-1) := by
    unfold find_best_matching_filter_index
    rw [if_pos (Or.inl hfil)]
  rw [hfb]
  dsimp only
  rw [if_neg (by decide)]

theorem learn_line_second (lf : LogFilters) (line : String)
    (hfil : lf.filters = []) (hhash : lf.words_hash = [])
    (hws : line_to_words lf line ≠ []) :
    learn_line (add_filter lf (line_to_words lf line)) line =
      some (add_filter lf (line_to_words lf line)) ∧
    is_line_known (add_filter lf (line_to_words lf line)) line = some true := by
  obtain ⟨h1, h2, h3, c1, c2, c3, c4⟩ := add_filter_fresh lf hfil hhash
    (line_to_words lf line) (line_to_words_ne_empty lf line) hws
  have hwords : line_to_words (add_filter lf (line_to_words lf line)) line =
      line_to_words lf line := by
    have c3' := c3
    have c4' := c4
    unfold line_to_words at c3' c4' ⊢
    rw [c3', c4']
  have hfil0 : (add_filter lf (line_to_words lf line)).filters[0]? =
      some ((line_to_words lf line).map (fun w => [w])) := by
    rw [h1]
    rfl
  have hhash0 : ∀ w ∈ line_to_words lf line,
      0 ∈ hashGet (add_filter lf (line_to_words lf line)).words_hash w := by
    intro w hw
    rw [h2 w hw]
    exact List.mem_singleton.mpr rfl
  have h0 : 0 < (add_filter lf (line_to_words lf line)).filters.length := by
    rw [h1]
    exact Nat.succ_pos 0
  have hfb : find_best_matching_filter_index
      (add_filter lf (line_to_words lf line)) (line_to_words lf line) = some 0 :=
    find_best_diag _ _ hfil0 h2 (line_to_words_ne_empty lf line) h0 hws
  constructor
  · unfold learn_line
    dsimp only
    rw [hwords, hfb]
    dsimp only
    rw [if_pos (by decide)]
    have ht0 : ((0 : Int)).toNat = 0 := rfl
    rw [ht0]
    exact update_filter_diag _ _ h1 hhash0 (line_to_words_ne_empty lf line) hws
  · unfold is_line_known
    rw [hwords, hfb]
    rfl

/-! ## Preservation of the reverse-index containment invariant -/

theorem mapIdxFrom_getElem (g : Nat → List String → List String) :
    ∀ (l : List (List String)) (s i : Nat),
      (mapIdxFrom g s l)[i]? = (l[i]?).map (g (s + i)) := by
  intro l
  induction l with
  | nil =>
    intro s i
    simp [mapIdxFrom]
  | cons col rest ih =>
    intro s i
    cases i with
    | zero =>
      show (g s col :: mapIdxFrom g (s + 1) rest)[0]? = _
      rw [List.getElem?_cons_zero, List.getElem?_cons_zero, Option.map_some']
      rw [Nat.add_zero]
    | succ i =>
      show (g s col :: mapIdxFrom g (s + 1) rest)[i + 1]? = _
      rw [List.getElem?_cons_succ, List.getElem?_cons_succ, ih (s + 1) i]
      have : s + 1 + i = s + (i + 1) := by omega
      rw [this]

theorem foldl_update_hash_word_config (L : List String) (fi : Nat)
    (s : LogFilters) :
    (L.foldl (fun acc w => update_hash acc w fi) s).max_allowed_new_alternatives
        = s.max_allowed_new_alternatives ∧
    (L.foldl (fun acc w => update_hash acc w fi) s).denote_optional
        = s.denote_optional ∧
    (L.foldl (fun acc w => update_hash acc w fi) s).ignore_numeric_words
        = s.ignore_numeric_words ∧
    (L.foldl (fun acc w => update_hash acc w fi) s).ignore_first_columns
        = s.ignore_first_columns := by
  induction L generalizing s with
  | nil => exact ⟨rfl, rfl, rfl, rfl⟩
  | cons w rest ih =>
    rw [List.foldl_cons]
    obtain ⟨h1, h2, h3, h4⟩ := ih (update_hash s w fi)
    obtain ⟨g1, g2, g3, g4⟩ := update_hash_config s w fi
    exact ⟨h1.trans g1, h2.trans g2, h3.trans g3, h4.trans g4⟩

theorem foldl_update_hash_mem (fi : Nat) (F' : List (List String)) :
    ∀ (slice : List String) (acc : LogFilters),
      acc.filters[fi]? = some F' → (∀ w ∈ slice, ∃ col ∈ F', w ∈ col) →
      ∀ (w' : String) (t : Nat),
        t ∈ hashGet (slice.foldl (fun a w => update_hash a w fi) acc).words_hash w' ↔
          (t ∈ hashGet acc.words_hash w' ∨ (t = fi ∧ w' ∈ slice)) := by
  intro slice
  induction slice with
  | nil =>
    intro acc _ _ w' t
    simp
  | cons w rest ih =>
    intro acc hfl hcols w' t
    rw [List.foldl_cons]
    have hword : is_word_in_filter acc w fi = true := by
      unfold is_word_in_filter
      rw [hfl]
      obtain ⟨col, hcol, hwc⟩ := hcols w (List.mem_cons_self _ _)
      exact List.any_eq_true.mpr ⟨col, hcol, by simpa using hwc⟩
    have hfl1 : (update_hash acc w fi).filters[fi]? = some F' := by
      rw [update_hash_filters, hfl]
    rw [ih (update_hash acc w fi) hfl1
      (fun u hu => hcols u (List.mem_cons_of_mem _ hu))]
    rw [mem_hashGet_update_hash acc w fi w' t]
    constructor
    · rintro ((h1 | ⟨rfl, rfl, -⟩) | ⟨rfl, h2⟩)
      · exact Or.inl h1
      · exact Or.inr ⟨rfl, List.mem_cons_self _ _⟩
      · exact Or.inr ⟨rfl, List.mem_cons_of_mem _ h2⟩
    · rintro (h1 | ⟨rfl, h2⟩)
      · exact Or.inl (Or.inl h1)
      · rcases List.mem_cons.mp h2 with rfl | h3
        · exact Or.inl (Or.inr ⟨rfl, rfl, hword⟩)
        · exact Or.inr ⟨rfl, h3⟩

/-- The central transfer lemma: replacing template `fi` by a new column list
`F'` and then registering a slice of words preserves the containment
invariant, provided old containments survive, new containments come only from
the slice or the marker, the slice is contained, and the marker is not in the
slice. -/
theorem inv_transfer (lf : LogFilters) (fi : Nat) (f F' : List (List String))
    (slice : List String)
    (hinv : ReverseIndexInv lf)
    (hfi : lf.filters[fi]? = some f)
    (hsub : ∀ w, (∃ col ∈ f, w ∈ col) → ∃ col' ∈ F', w ∈ col')
    (hnew : ∀ w, w ≠ lf.denote_optional → (∃ col' ∈ F', w ∈ col') →
      (∃ col ∈ f, w ∈ col) ∨ w ∈ slice)
    (hslice : ∀ w ∈ slice, ∃ col' ∈ F', w ∈ col')
    (hmarkS : lf.denote_optional ∉ slice) :
    ReverseIndexInv (slice.foldl (fun acc w => update_hash acc w fi)
      { lf with filters := lf.filters.set fi F' }) := by
  have hlt : fi < lf.filters.length := by
    by_contra hcon
    rw [List.getElem?_eq_none (by omega)] at hfi
    cases hfi
  have hfl : ({ lf with filters := lf.filters.set fi F' } : LogFilters).filters[fi]?
      = some F' := by
    show (lf.filters.set fi F')[fi]? = some F'
    rw [List.getElem?_set_self (by omega)]
  have hmem := foldl_update_hash_mem fi F' slice
    { lf with filters := lf.filters.set fi F' } hfl hslice
  have hfilters : (slice.foldl (fun a w => update_hash a w fi)
      { lf with filters := lf.filters.set fi F' }).filters = lf.filters.set fi F' := by
    rw [foldl_update_hash_filters]
  have hd : (slice.foldl (fun a w => update_hash a w fi)
      { lf with filters := lf.filters.set fi F' }).denote_optional =
      lf.denote_optional :=
    (foldl_update_hash_word_config slice fi _).2.1
  constructor
  · intro w hw t
    rw [hd] at hw
    rw [hmem w t]
    have hgetset : (lf.filters.set fi F')[t]? =
        if t = fi then some F' else lf.filters[t]? := by
      by_cases ht : t = fi
      · rw [if_pos ht, ht, List.getElem?_set_self (by omega)]
      · rw [if_neg ht, List.getElem?_set_ne (fun he => ht he.symm)]
    constructor
    · rintro (h1 | ⟨rfl, h2⟩)
      · obtain ⟨g, hg, col, hcol, hwcol⟩ := (hinv.1 w hw t).mp h1
        by_cases ht : t = fi
        · subst ht
          rw [hfi] at hg
          cases hg
          obtain ⟨col', hcol', hwcol'⟩ := hsub w ⟨col, hcol, hwcol⟩
          refine ⟨F', ?_, col', hcol', hwcol'⟩
          rw [hfilters, hgetset, if_pos rfl]
        · refine ⟨g, ?_, col, hcol, hwcol⟩
          rw [hfilters, hgetset, if_neg ht]
          exact hg
      · obtain ⟨col', hcol', hwcol'⟩ := hslice w h2
        refine ⟨F', ?_, col', hcol', hwcol'⟩
        rw [hfilters, hgetset, if_pos rfl]
    · rintro ⟨g, hg, col', hcol', hwcol'⟩
      rw [hfilters, hgetset] at hg
      by_cases ht : t = fi
      · rw [if_pos ht] at hg
        cases hg
        rcases hnew w hw ⟨col', hcol', hwcol'⟩ with hold | hsl
        · left
          show t ∈ hashGet lf.words_hash w
          rw [← ht] at hfi
          exact (hinv.1 w hw t).mpr ⟨f, hfi, hold⟩
        · exact Or.inr ⟨ht, hsl⟩
      · rw [if_neg ht] at hg
        exact Or.inl ((hinv.1 w hw t).mpr ⟨g, hg, col', hcol', hwcol'⟩)
  · apply List.eq_nil_iff_forall_not_mem.mpr
    intro t ht
    rw [hd] at ht
    rw [hmem lf.denote_optional t] at ht
    rcases ht with h1 | ⟨-, h2⟩
    · rw [hinv.2] at h1
      cases h1
    · exact hmarkS h2

theorem inv_set_reverse (s : LogFilters) (fi : Nat) (f : List (List String))
    (hf : s.filters[fi]? = some f) (hinv : ReverseIndexInv s) :
    ReverseIndexInv { s with filters := s.filters.set fi f.reverse } := by
  have hlt : fi < s.filters.length := by
    by_contra hcon
    rw [List.getElem?_eq_none (by omega)] at hf
    cases hf
  constructor
  · intro w hw t
    rw [hinv.1 w hw t]
    have hgetset : (s.filters.set fi f.reverse)[t]? =
        if t = fi then some f.reverse else s.filters[t]? := by
      by_cases ht : t = fi
      · rw [if_pos ht, ht, List.getElem?_set_self (by omega)]
      · rw [if_neg ht, List.getElem?_set_ne (fun he => ht he.symm)]
    constructor
    · rintro ⟨g, hg, col, hcol, hwcol⟩
      by_cases ht : t = fi
      · subst ht
        rw [hf] at hg
        cases hg
        refine ⟨f.reverse, ?_, col, List.mem_reverse.mpr hcol, hwcol⟩
        show (s.filters.set t f.reverse)[t]? = _
        rw [List.getElem?_set_self (by omega)]
      · refine ⟨g, ?_, col, hcol, hwcol⟩
        show (s.filters.set fi f.reverse)[t]? = _
        rw [List.getElem?_set_ne (fun he => ht he.symm)]
        exact hg
    · rintro ⟨g, hg, col, hcol, hwcol⟩
      rw [hgetset] at hg
      by_cases ht : t = fi
      · rw [if_pos ht] at hg
        cases hg
        rw [ht]
        exact ⟨f, hf, col, List.mem_reverse.mp hcol, hwcol⟩
      · rw [if_neg ht] at hg
        exact ⟨g, hg, col, hcol, hwcol⟩
  · exact hinv.2

theorem mem_of_getElem_opt {α : Type} {l : List α} {i : Nat} {a : α}
    (h : l[i]? = some a) : a ∈ l := by
  obtain ⟨hl, he⟩ := List.getElem?_eq_some.mp h
  rw [← he]
  exact List.getElem_mem hl

theorem lt_length_of_getElem_opt {α : Type} {l : List α} {i : Nat} {a : α}
    (h : l[i]? = some a) : i < l.length :=
  (List.getElem?_eq_some.mp h).1

theorem mem_extend_col (c : Prop) [Decidable c] (u w : String) (X : List String)
    (h : w ∈ X) : w ∈ (if c then (if u ∈ X then X else X ++ [u]) else X) := by
  split
  · split
    · exact h
    · exact List.mem_append_left _ h
  · exact h

theorem mem_extend_col_cases (c : Prop) [Decidable c] (u w : String)
    (X : List String) (h : w ∈ (if c then (if u ∈ X then X else X ++ [u]) else X)) :
    w ∈ X ∨ (c ∧ w = u) := by
  split at h
  · rename_i hc
    split at h
    · exact Or.inl h
    · rcases List.mem_append.mp h with h1 | h1
      · exact Or.inl h1
      · exact Or.inr ⟨hc, List.mem_singleton.mp h1⟩
  · exact Or.inl h

theorem mem_extend_col_self (c : Prop) [Decidable c] (hc : c) (w : String)
    (X : List String) : w ∈ (if c then (if w ∈ X then X else X ++ [w]) else X) := by
  rw [if_pos hc]
  split
  · assumption
  · exact List.mem_append_right _ (List.mem_singleton.mpr rfl)

theorem mem_slice_at (words : List String) (ws fw : Nat) (hfw : fw ≤ words.length) :
    ∀ p, p < fw - ws →
      ((words.drop ws).take (fw - ws))[p]? = words[ws + p]? ∧
      (words[ws + p]?.getD "") ∈ (words.drop ws).take (fw - ws) := by
  intro p hp
  have hidx : ws + p < words.length := by omega
  have hq : ((words.drop ws).take (fw - ws))[p]? = words[ws + p]? := by
    rw [List.getElem?_take, if_pos hp, List.getElem?_drop]
  refine ⟨hq, ?_⟩
  have hsome : words[ws + p]? = some (words[ws + p]) :=
    List.getElem?_eq_getElem hidx
  rw [hsome, Option.getD_some]
  exact mem_of_getElem_opt (by rw [hq, hsome])

/-- A single normalisation pass preserves the containment invariant, provided
the optional marker is not a word of the line. -/
theorem normalise_preserves_inv (lf : LogFilters) (words : List String) (fi : Nat)
    (ws fs : Nat) (s' : LogFilters) (i' j' : Int)
    (hinv : ReverseIndexInv lf)
    (hmarkw : lf.denote_optional ∉ words)
    (h : normalise_lengths_before_first_match lf words fi ws fs = some (s', i', j')) :
    ReverseIndexInv s' ∧ s'.denote_optional = lf.denote_optional := by
  rcases normalise_shape_cols lf words fi ws fs
    with hs | ⟨f, fw, ff, hf, h1, h2, h3, h4, hbr⟩
  · rw [hs] at h
    cases h
    exact ⟨hinv, rfl⟩
  · have hsliceW : ∀ w ∈ (words.drop ws).take (fw - ws), w ∈ words := fun w hw =>
      List.drop_subset ws words (List.take_subset _ _ hw)
    have hmarkS : lf.denote_optional ∉ (words.drop ws).take (fw - ws) :=
      fun hc => hmarkw (hsliceW _ hc)
    rcases hbr with ⟨hws, heqn⟩ | ⟨hle, heqn⟩
    · rw [heqn] at h
      cases h
      refine ⟨inv_transfer lf fi f _ _ hinv hf ?_ ?_ ?_ hmarkS,
        (foldl_update_hash_word_config _ _ _).2.1⟩
      · rintro w ⟨col, hcol, hwcol⟩
        have hcol2 : col ∈ f.take ff ++ f.drop ff := by
          rw [List.take_append_drop]
          exact hcol
        rcases List.mem_append.mp hcol2 with hc | hc
        · exact ⟨col, List.mem_append_left _ (List.mem_append_left _ hc), hwcol⟩
        · exact ⟨col, List.mem_append_right _ hc, hwcol⟩
      · rintro w hwm ⟨col', hcol', hwcol'⟩
        rcases List.mem_append.mp hcol' with hc | hc
        · rcases List.mem_append.mp hc with hc2 | hc2
          · exact Or.inl ⟨col', List.take_subset _ _ hc2, hwcol'⟩
          · obtain ⟨u, hu, hueq⟩ := List.mem_map.mp hc2
            rw [← hueq] at hwcol'
            rcases List.mem_cons.mp hwcol' with rfl | hw2
            · exact Or.inr hu
            · rcases List.mem_singleton.mp (by simpa using hw2) with rfl
              exact absurd rfl hwm
        · exact Or.inl ⟨col', List.drop_subset _ _ hc, hwcol'⟩
      · intro w hw
        refine ⟨[w, lf.denote_optional], ?_, List.mem_cons_self _ _⟩
        exact List.mem_append_left _ (List.mem_append_right _
          (List.mem_map_of_mem _ hw))
    · rw [heqn] at h
      cases h
      refine ⟨inv_transfer lf fi f _ _ hinv hf ?_ ?_ ?_ hmarkS,
        (foldl_update_hash_word_config _ _ _).2.1⟩
      · rintro w ⟨col, hcol, hwcol⟩
        obtain ⟨i, hi⟩ := List.mem_iff_getElem?.mp hcol
        refine ⟨(fun c col => if ws + ff - fw ≤ c ∧ c < ff then (let w := (words[ws + (c - (ws + ff - fw))]?).getD ""; if w ∈ col then col else col ++ [w]) else col) i ((fun c col => if fs ≤ c ∧ c < ws + ff - fw then (if lf.denote_optional ∈ col then col else col ++ [lf.denote_optional]) else col) i col), ?_, ?_⟩
        · apply mem_of_getElem_opt
          rw [mapIdxFrom_getElem, mapIdxFrom_getElem, Nat.zero_add, hi]
          simp only [Option.map_some']
        · dsimp only
          exact mem_extend_col _ _ _ _ (mem_extend_col _ _ _ _ hwcol)
      · rintro w hwm ⟨col', hcol', hwcol'⟩
        obtain ⟨i, hi⟩ := List.mem_iff_getElem?.mp hcol'
        rw [mapIdxFrom_getElem, mapIdxFrom_getElem, Nat.zero_add] at hi
        rcases hfi2 : f[i]? with _ | col
        · rw [hfi2] at hi
          cases hi
        · rw [hfi2] at hi
          simp only [Option.map_some'] at hi
          have hcol : col ∈ f := mem_of_getElem_opt hfi2
          have hieq := Option.some.inj hi
          rw [← hieq] at hwcol'
          rcases mem_extend_col_cases _ _ _ _ hwcol' with h5 | ⟨hcnd, rfl⟩
          · rcases mem_extend_col_cases _ _ _ _ h5 with h6 | ⟨-, rfl⟩
            · exact Or.inl ⟨col, hcol, h6⟩
            · exact absurd rfl hwm
          · right
            have hp : i - (ws + ff - fw) < fw - ws := by omega
            exact (mem_slice_at words ws fw (by omega) (i - (ws + ff - fw)) hp).2
      · intro w hw
        obtain ⟨p, hp⟩ := List.mem_iff_getElem?.mp hw
        have hplen : p < fw - ws := by
          have hlt := lt_length_of_getElem_opt hp
          have hsl : ((words.drop ws).take (fw - ws)).length = fw - ws := by
            rw [List.length_take, List.length_drop]
            omega
          omega
        have hslice2 := mem_slice_at words ws fw (by omega) p hplen
        have hwval : words[ws + p]?.getD "" = w := by
          rw [← hslice2.1, hp, Option.getD_some]
        have hcl : ws + ff - fw + p < f.length := by omega
        have hcol : f[ws + ff - fw + p]? = some (f[ws + ff - fw + p]) :=
          List.getElem?_eq_getElem hcl
        refine ⟨(fun c col => if ws + ff - fw ≤ c ∧ c < ff then (let w := (words[ws + (c - (ws + ff - fw))]?).getD ""; if w ∈ col then col else col ++ [w]) else col) (ws + ff - fw + p) ((fun c col => if fs ≤ c ∧ c < ws + ff - fw then (if lf.denote_optional ∈ col then col else col ++ [lf.denote_optional]) else col) (ws + ff - fw + p) (f[ws + ff - fw + p])), ?_, ?_⟩
        · apply mem_of_getElem_opt
          rw [mapIdxFrom_getElem, mapIdxFrom_getElem, Nat.zero_add, hcol]
          simp only [Option.map_some']
        · dsimp only
          have hidx2 : ws + (ws + ff - fw + p - (ws + ff - fw)) = ws + p := by omega
          rw [hidx2, hwval]
          exact mem_extend_col_self _ ⟨by omega, by omega⟩ w _

theorem updLoop_preserves_inv (words : List String) (fi : Nat) :
    ∀ (fuel : Nat) (s : LogFilters) (i j : Int) (s2 : LogFilters) (i2 j2 : Int),
      ReverseIndexInv s → s.denote_optional ∉ words →
      updLoop words fi fuel s i j = some (s2, i2, j2) →
      ReverseIndexInv s2 ∧ s2.denote_optional = s.denote_optional := by
  intro fuel
  induction fuel with
  | zero =>
    intro s i j s2 i2 j2 _ _ h
    simp [updLoop] at h
  | succ fuel ih =>
    intro s i j s2 i2 j2 hinv hmark h
    unfold updLoop at h
    by_cases hguard : i ≥ 0 ∧ j ≥ 0 ∧ (words.length : Int) > i
    · rw [if_pos hguard] at h
      rcases hn : normalise_lengths_before_first_match s words fi i.toNat j.toNat
        with _ | ⟨s', i', j'⟩
      · rw [hn] at h
        dsimp only at h
        cases h
      · rw [hn] at h
        dsimp only at h
        obtain ⟨hinv', hd'⟩ := normalise_preserves_inv s words fi i.toNat j.toNat
          s' i' j' hinv hmark hn
        have hmark' : s'.denote_optional ∉ words := by
          rw [hd']
          exact hmark
        by_cases hc1 : i' = -1 ∨ j' = -1
        · rw [if_pos hc1] at h
          cases h
          exact ⟨hinv', hd'⟩
        · rw [if_neg hc1] at h
          by_cases hc2 : i' ≠ i ∨ j' ≠ j
          · rw [if_pos hc2] at h
            obtain ⟨hi2, hd2⟩ := ih s' i' j' s2 i2 j2 hinv' hmark' h
            exact ⟨hi2, hd2.trans hd'⟩
          · rw [if_neg hc2] at h
            by_cases hc3 : i = (words.length : Int) - 1
            · rw [if_pos hc3] at h
              cases h
              exact ⟨hinv', hd'⟩
            · rw [if_neg hc3] at h
              rcases hf : s'.filters[fi]? with _ | f
              · rw [hf] at h
                dsimp only at h
                cases h
              · rw [hf] at h
                dsimp only at h
                by_cases hc4 : j = (f.length : Int) - 1
                · rw [if_pos hc4] at h
                  cases h
                  exact ⟨hinv', hd'⟩
                · rw [if_neg hc4] at h
                  obtain ⟨hi2, hd2⟩ := ih s' (i + 1) (j + 1) s2 i2 j2 hinv' hmark' h
                  exact ⟨hi2, hd2.trans hd'⟩
    · rw [if_neg hguard] at h
      cases h
      exact ⟨hinv, rfl⟩

theorem pushExtraWords_preserves_inv (fi : Nat) :
    ∀ (tail : List String) (s : LogFilters), ReverseIndexInv s →
      s.filters[fi]?.isSome → s.denote_optional ∉ tail →
      ReverseIndexInv (pushExtraWords fi s tail) ∧
      (pushExtraWords fi s tail).denote_optional = s.denote_optional := by
  intro tail
  induction tail with
  | nil =>
    intro s hinv _ _
    exact ⟨hinv, rfl⟩
  | cons w rest ih =>
    intro s hinv hsome hmark
    rw [pushExtraWords]
    rcases hf : s.filters[fi]? with _ | f
    · rw [hf] at hsome
      cases hsome
    · have hgd : s.filters[fi]?.getD [] = f := by
        rw [hf]
        rfl
      have hstep := inv_transfer s fi f (f ++ [[w, s.denote_optional]]) [w] hinv hf
        (fun u ⟨col, hcol, hucol⟩ => ⟨col, List.mem_append_left _ hcol, hucol⟩)
        (by
          rintro u hum ⟨col, hcol, hucol⟩
          rcases List.mem_append.mp hcol with hc | hc
          · exact Or.inl ⟨col, hc, hucol⟩
          · rcases List.mem_singleton.mp hc with rfl
            rcases List.mem_cons.mp hucol with rfl | h2
            · exact Or.inr (List.mem_singleton.mpr rfl)
            · rcases List.mem_singleton.mp (by simpa using h2) with rfl
              exact absurd rfl hum)
        (by
          intro u hu
          rcases List.mem_singleton.mp hu with rfl
          exact ⟨[u, s.denote_optional],
            List.mem_append_right _ (List.mem_singleton.mpr rfl),
            List.mem_cons_self _ _⟩)
        (by
          intro hc
          exact hmark (by rw [List.mem_singleton.mp hc]; exact List.mem_cons_self _ _))
      simp only [List.foldl_cons, List.foldl_nil] at hstep
      simp only [Option.getD_some]
      have hcfg := update_hash_config
        { s with filters := s.filters.set fi (f ++ [[w, s.denote_optional]]) } w fi
      have hsome' : (update_hash { s with filters := s.filters.set fi (f ++ [[w, s.denote_optional]]) } w fi).filters[fi]?.isSome := by
        rw [update_hash_filters]
        show ((s.filters.set fi (f ++ [[w, s.denote_optional]]))[fi]?).isSome
        have hlt : fi < s.filters.length := by
          by_contra hcon
          rw [List.getElem?_eq_none (by omega)] at hf
          cases hf
        rw [List.getElem?_set_self (by omega)]
        rfl
      have hmark' : (update_hash { s with filters := s.filters.set fi (f ++ [[w, s.denote_optional]]) } w fi).denote_optional ∉ rest := by
        rw [hcfg.2.1]
        exact fun hc => hmark (List.mem_cons_of_mem _ hc)
      obtain ⟨hi2, hd2⟩ := ih _ hstep hsome' hmark'
      exact ⟨hi2, hd2.trans hcfg.2.1⟩

theorem foldl_headD_eq_word (E : Nat) :
    ∀ (ws' : List String) (acc : LogFilters),
      (ws'.map (fun w => [w])).foldl (fun a col => update_hash a (col.headD "") E) acc =
        ws'.foldl (fun a w => update_hash a w E) acc := by
  intro ws'
  induction ws' with
  | nil =>
    intro acc
    rfl
  | cons w rest ih =>
    intro acc
    rw [List.map_cons, List.foldl_cons, List.foldl_cons]
    exact ih (update_hash acc w E)

theorem inv_append (lf : LogFilters) (hinv : ReverseIndexInv lf)
    (NF : List (List String)) (slice : List String)
    (hnewc : ∀ col ∈ NF, ∀ x ∈ col, x ∈ slice)
    (hslice : ∀ w ∈ slice, ∃ col ∈ NF, w ∈ col)
    (hmarkS : lf.denote_optional ∉ slice) :
    ReverseIndexInv (slice.foldl (fun a w => update_hash a w lf.filters.length)
      { lf with filters := lf.filters ++ [NF] }) := by
  have hfl : ({ lf with filters := lf.filters ++ [NF] } : LogFilters).filters[lf.filters.length]?
      = some NF := by
    show (lf.filters ++ [NF])[lf.filters.length]? = some NF
    rw [List.getElem?_concat_length]
  have hmem := foldl_update_hash_mem lf.filters.length NF slice
    { lf with filters := lf.filters ++ [NF] } hfl hslice
  have hfilters : (slice.foldl (fun a w => update_hash a w lf.filters.length)
      { lf with filters := lf.filters ++ [NF] }).filters = lf.filters ++ [NF] := by
    rw [foldl_update_hash_filters]
  have hd : (slice.foldl (fun a w => update_hash a w lf.filters.length)
      { lf with filters := lf.filters ++ [NF] }).denote_optional =
      lf.denote_optional :=
    (foldl_update_hash_word_config slice _ _).2.1
  have hsplit : ∀ t, (lf.filters ++ [NF])[t]? =
      if t < lf.filters.length then lf.filters[t]?
      else if t = lf.filters.length then some NF else none := by
    intro t
    by_cases h1 : t < lf.filters.length
    · rw [if_pos h1, List.getElem?_append, if_pos h1]
    · rw [if_neg h1]
      by_cases h2 : t = lf.filters.length
      · rw [if_pos h2, h2, List.getElem?_concat_length]
      · rw [if_neg h2, List.getElem?_eq_none]
        rw [List.length_append]
        simp only [List.length_singleton]
        omega
  constructor
  · intro w hw t
    rw [hd] at hw
    rw [hmem w t]
    constructor
    · rintro (h1 | ⟨rfl, h2⟩)
      · obtain ⟨g, hg, col, hcol, hwcol⟩ := (hinv.1 w hw t).mp h1
        have hlt : t < lf.filters.length := lt_length_of_getElem_opt hg
        refine ⟨g, ?_, col, hcol, hwcol⟩
        rw [hfilters, hsplit, if_pos hlt]
        exact hg
      · obtain ⟨col, hcol, hwcol⟩ := hslice w h2
        refine ⟨NF, ?_, col, hcol, hwcol⟩
        rw [hfilters, hsplit, if_neg (by omega), if_pos rfl]
    · rintro ⟨g, hg, col, hcol, hwcol⟩
      rw [hfilters, hsplit] at hg
      by_cases h1 : t < lf.filters.length
      · rw [if_pos h1] at hg
        exact Or.inl ((hinv.1 w hw t).mpr ⟨g, hg, col, hcol, hwcol⟩)
      · rw [if_neg h1] at hg
        by_cases h2 : t = lf.filters.length
        · rw [if_pos h2] at hg
          cases hg
          exact Or.inr ⟨h2, hnewc col hcol w hwcol⟩
        · rw [if_neg h2] at hg
          cases hg
  · apply List.eq_nil_iff_forall_not_mem.mpr
    intro t ht
    rw [hd] at ht
    rw [hmem lf.denote_optional t] at ht
    rcases ht with h1 | ⟨-, h2⟩
    · rw [hinv.2] at h1
      cases h1
    · exact hmarkS h2

theorem add_filter_preserves_inv (lf : LogFilters) (hinv : ReverseIndexInv lf)
    (ws : List String) (hmark : lf.denote_optional ∉ ws) :
    ReverseIndexInv (add_filter lf ws) ∧
    (add_filter lf ws).denote_optional = lf.denote_optional := by
  unfold add_filter
  dsimp only
  by_cases hnf : (ws.filter (fun w => decide (w ≠ ""))).map (fun w => [w]) = []
  · rw [if_pos hnf]
    exact ⟨hinv, rfl⟩
  · rw [if_neg hnf]
    rw [foldl_headD_eq_word lf.filters.length (ws.filter (fun w => decide (w ≠ "")))]
    refine ⟨inv_append lf hinv _ _ ?_ ?_ ?_,
      (foldl_update_hash_word_config _ _ _).2.1⟩
    · intro col hcol x hx
      obtain ⟨u, hu, hueq⟩ := List.mem_map.mp hcol
      rw [← hueq] at hx
      rcases List.mem_singleton.mp hx with rfl
      exact hu
    · intro w hw
      exact ⟨[w], List.mem_map_of_mem _ hw, List.mem_singleton.mpr rfl⟩
    · intro hc
      exact hmark (List.mem_of_mem_filter hc)

theorem update_filter_preserves_inv (lf : LogFilters) (words : List String)
    (fi : Nat) (hinv : ReverseIndexInv lf)
    (hmarkw : lf.denote_optional ∉ words) (lf' : LogFilters)
    (h : update_filter lf words fi = some lf') :
    ReverseIndexInv lf' ∧ lf'.denote_optional = lf.denote_optional := by
  unfold update_filter at h
  rcases hn0 : normalise_lengths_before_first_match lf words fi 0 0
    with _ | ⟨s1, i1, j1⟩
  · rw [hn0] at h
    cases h
  · rw [hn0] at h
    dsimp only at h
    obtain ⟨hinv1, hd1⟩ := normalise_preserves_inv lf words fi 0 0 s1 i1 j1
      hinv hmarkw hn0
    have hmark1 : s1.denote_optional ∉ words := by
      rw [hd1]
      exact hmarkw
    rcases hl : updLoop words fi ((words.length + 1) *
        ((s1.filters[fi]?.getD []).length + words.length + 2) + 1) s1 i1 j1
      with _ | ⟨s2, i2, j2⟩
    · rw [hl] at h
      cases h
    · rw [hl] at h
      dsimp only at h
      obtain ⟨hinv2, hd2⟩ := updLoop_preserves_inv words fi _ s1 i1 j1 s2 i2 j2
        hinv1 hmark1 hl
      have hd2' : s2.denote_optional = lf.denote_optional := hd2.trans hd1
      have hmark2 : s2.denote_optional ∉ words := by
        rw [hd2']
        exact hmarkw
      by_cases hg2 : i2 ≥ 0 ∧ j2 ≥ 0
      · rw [if_pos hg2] at h
        rcases hf2 : s2.filters[fi]? with _ | f
        · rw [hf2] at h
          dsimp only at h
          cases h
        · rw [hf2] at h
          dsimp only at h
          by_cases hp : words.length > f.length ∧ j2 = (f.length : Int) - 1
          · rw [if_pos hp] at h
            cases h
            have hmarkd : s2.denote_optional ∉ words.drop f.length :=
              fun hc => hmark2 (List.drop_subset _ _ hc)
            obtain ⟨hi3, hd3⟩ := pushExtraWords_preserves_inv fi
              (words.drop f.length) s2 hinv2 (by rw [hf2]; rfl) hmarkd
            exact ⟨hi3, hd3.trans hd2'⟩
          · rw [if_neg hp] at h
            by_cases hi2 : i2 < (words.length : Int)
            · rw [if_pos hi2] at h
              have hinv3 := inv_set_reverse s2 fi f hf2 hinv2
              rcases hn1 : normalise_lengths_before_first_match
                  { s2 with filters := s2.filters.set fi f.reverse }
                  words.reverse fi 0 0 with _ | ⟨s4, a4, b4⟩
              · rw [hn1] at h
                cases h
              · rw [hn1] at h
                dsimp only at h
                cases h
                have hmark3 : ({ s2 with filters := s2.filters.set fi f.reverse } :
                    LogFilters).denote_optional ∉ words.reverse := by
                  show s2.denote_optional ∉ words.reverse
                  rw [hd2']
                  exact fun hc => hmarkw (List.mem_reverse.mp hc)
                obtain ⟨hinv4, hd4⟩ := normalise_preserves_inv _ words.reverse fi 0 0
                  s4 a4 b4 hinv3 hmark3 hn1
                have hs4len : s4.filters.length =
                    ({ s2 with filters := s2.filters.set fi f.reverse } :
                      LogFilters).filters.length :=
                  normalise_filters_length _ _ _ _ _ s4 a4 b4 hn1
                have hlt2 : fi < s2.filters.length := lt_length_of_getElem_opt hf2
                have hs4some : ∃ g, s4.filters[fi]? = some g := by
                  have : fi < s4.filters.length := by
                    rw [hs4len]
                    show fi < (s2.filters.set fi f.reverse).length
                    rw [List.length_set]
                    exact hlt2
                  exact ⟨s4.filters[fi], List.getElem?_eq_getElem this⟩
                obtain ⟨g, hg⟩ := hs4some
                rw [hg]
                simp only [Option.getD_some]
                refine ⟨inv_set_reverse s4 fi g hg hinv4, ?_⟩
                show s4.denote_optional = lf.denote_optional
                rw [hd4]
                exact hd2'
            · rw [if_neg hi2] at h
              cases h
              exact ⟨hinv2, hd2'⟩
      · rw [if_neg hg2] at h
        cases h
        exact ⟨hinv2, hd2'⟩

theorem learn_line_preserves_inv (lf : LogFilters) (line : String)
    (lf' : LogFilters) (hinv : ReverseIndexInv lf)
    (hmark : lf.denote_optional ∉ line_to_words lf line)
    (h : learn_line lf line = some lf') :
    ReverseIndexInv lf' ∧ lf'.denote_optional = lf.denote_optional := by
  unfold learn_line at h
  dsimp only at h
  rcases hfb : find_best_matching_filter_index lf (line_to_words lf line)
    with _ | idx
  · rw [hfb] at h
    cases h
  · rw [hfb] at h
    dsimp only at h
    by_cases hidx : idx ≥ 0
    · rw [if_pos hidx] at h
      exact update_filter_preserves_inv lf (line_to_words lf line) idx.toNat
        hinv hmark lf' h
    · rw [if_neg hidx] at h
      cases h
      exact add_filter_preserves_inv lf hinv (line_to_words lf line) hmark

theorem splitChars_no_delim (p : Char → Bool) :
    ∀ (cs : List Char) (g : List Char), g ∈ splitChars p cs →
      ∀ c ∈ g, p c = false := by
  intro cs
  induction cs with
  | nil =>
    intro g hg c hc
    rcases List.mem_singleton.mp hg with rfl
    cases hc
  | cons x rest ih =>
    intro g hg c hc
    unfold splitChars at hg
    split at hg
    · rcases List.mem_cons.mp hg with rfl | hg'
      · cases hc
      · exact ih g hg' c hc
    · rename_i hpx
      rcases hsc : splitChars p rest with _ | ⟨g', gs⟩
      · rw [hsc] at hg
        rcases List.mem_singleton.mp hg with rfl
        rcases List.mem_singleton.mp hc with rfl
        simpa using hpx
      · rw [hsc] at hg
        rcases List.mem_cons.mp hg with rfl | hg'
        · rcases List.mem_cons.mp hc with rfl | hc'
          · simpa using hpx
          · exact ih g' (by rw [hsc]; exact List.mem_cons_self _ _) c hc'
        · exact ih g (by rw [hsc]; exact List.mem_cons_of_mem _ hg') c hc

theorem dot_notin_line_split (line : String) : "." ∉ line_split line := by
  intro hmem
  unfold line_split at hmem
  rw [List.mem_filter] at hmem
  obtain ⟨hmem2, -⟩ := hmem
  obtain ⟨g, hg, hgeq⟩ := List.mem_map.mp hmem2
  have hglist : g = ['.'] := congrArg String.toList hgeq
  have := splitChars_no_delim isSplitChar line.toList g hg '.'
    (by rw [hglist]; exact List.mem_singleton.mpr rfl)
  simp [isSplitChar] at this

theorem dot_notin_tokens (lf : LogFilters) (line : String)
    (hdot : lf.denote_optional = ".") :
    lf.denote_optional ∉ line_to_words lf line := by
  rw [hdot]
  intro hmem
  exact dot_notin_line_split line (lineToWordsGo_subset _ _ _ 0 _ hmem)

/-! ## Well-formedness of the empty store -/

theorem ReverseIndexInv_new : ReverseIndexInv LogFilters.new := by
  constructor
  · intro w hw t
    constructor
    · intro ht
      simp [LogFilters.new, hashGet] at ht
    · rintro ⟨f, hf, -⟩
      simp [LogFilters.new] at hf
  · rfl

theorem NoEmptyAlternative_new : NoEmptyAlternative LogFilters.new := by
  intro t f hf col hcol
  simp [LogFilters.new] at hf

theorem BucketBounds_new : BucketBounds LogFilters.new :=
  fun p hp => absurd hp (List.not_mem_nil p)

/-! ## Claim theorems -/

/-- C10: for every store state, word sequence and template id, `update_filter`
terminates — the repeated align-from-offsets iteration (with its column
insertions and manual advances) always reaches an exit. -/
theorem update_filter_terminates (lf : LogFilters) (words : List String) (fi : Nat) :
    (update_filter lf words fi).isSome := by
  obtain ⟨lf', he, -⟩ := update_filter_shape lf words fi
  rw [he]
  rfl

/-- C8: calling the Merger with a template id that does not exist in the
store, or with an empty word sequence, leaves the whole state (template store
and reverse index) unchanged and raises no error. -/
theorem update_filter_noop_on_invalid (lf : LogFilters) (words : List String)
    (fi : Nat) (h : words = [] ∨ lf.filters[fi]? = none) :
    update_filter lf words fi = some lf :=
  update_filter_invalid lf words fi h

theorem update_filter_noop_on_invalid_witness :
    ((["a"] : List String) = [] ∨ LogFilters.new.filters[5]? = none) ∧
      update_filter LogFilters.new ["a"] 5 = some LogFilters.new :=
  ⟨Or.inr (by decide),
    update_filter_noop_on_invalid LogFilters.new ["a"] 5 (Or.inr (by decide))⟩

/-- C6: after `learn_line` the number of templates is unchanged or increased
by exactly one, and every template id present before is still present at its
creation-order position. -/
theorem learn_line_template_count (lf : LogFilters) (log_line : String)
    (lf' : LogFilters) (h : learn_line lf log_line = some lf') :
    (lf'.filters.length = lf.filters.length ∨
      lf'.filters.length = lf.filters.length + 1) ∧
    ∀ t, t < lf.filters.length → t < lf'.filters.length := by
  unfold learn_line at h
  dsimp only at h
  rcases hfb : find_best_matching_filter_index lf (line_to_words lf log_line)
    with _ | idx
  · rw [hfb] at h
    cases h
  · rw [hfb] at h
    dsimp only at h
    by_cases hidx : idx ≥ 0
    · rw [if_pos hidx] at h
      obtain ⟨lf2, he, hlen⟩ := update_filter_shape lf (line_to_words lf log_line)
        idx.toNat
      rw [he] at h
      cases h
      exact ⟨Or.inl hlen, fun t ht => by omega⟩
    · rw [if_neg hidx] at h
      cases h
      rcases add_filter_filters_length lf (line_to_words lf log_line) with h1 | h1
      · exact ⟨Or.inl h1, fun t ht => by omega⟩
      · exact ⟨Or.inr h1, fun t ht => by omega⟩

theorem learn_line_template_count_witness :
    learn_line LogFilters.new "a b c" =
      some ⟨[[["c"]]], [("c", [0])], 0, ".", true, 2⟩ ∧
    (((⟨[[["c"]]], [("c", [0])], 0, ".", true, 2⟩ : LogFilters).filters.length =
        LogFilters.new.filters.length ∨
      (⟨[[["c"]]], [("c", [0])], 0, ".", true, 2⟩ : LogFilters).filters.length =
        LogFilters.new.filters.length + 1) ∧
    ∀ t, t < LogFilters.new.filters.length →
      t < (⟨[[["c"]]], [("c", [0])], 0, ".", true, 2⟩ : LogFilters).filters.length) :=
  ⟨by decide, learn_line_template_count LogFilters.new "a b c" _ (by decide)⟩

/-- C3: for every word sequence and template, under the reverse-index
containment invariant (and columns free of the empty string),
`count_consequent_matches` equals the specification's value: the greedy
ordered position-increasing match count, zeroed as soon as the non-matching
words exceed `max_allowed_new_alternatives + max(0, words.len() −
column_count)`. -/
theorem count_consequent_matches_follows_spec (lf : LogFilters)
    (hinv : ReverseIndexInv lf) (hne : NoEmptyAlternative lf)
    (words : List String) (fi : Nat) :
    count_consequent_matches lf words fi = specConsequentMatches lf words fi :=
  count_consequent_matches_eq_spec lf hinv hne words fi

theorem count_consequent_matches_follows_spec_witness :
    ReverseIndexInv LogFilters.new ∧ NoEmptyAlternative LogFilters.new ∧
      count_consequent_matches LogFilters.new ["a"] 0 =
        specConsequentMatches LogFilters.new ["a"] 0 :=
  ⟨ReverseIndexInv_new, NoEmptyAlternative_new,
    count_consequent_matches_follows_spec LogFilters.new ReverseIndexInv_new
      NoEmptyAlternative_new ["a"] 0⟩

/-- C2: under bucket bounds, the Candidate Selector emits exactly the
template ids whose occurrence count in the sorted bucket concatenation meets
the two-sided threshold (`words.len() − max_allowed_new_alternatives`, capped
below by `column_count − max_allowed_new_alternatives − optional_columns`);
each id appears at most once and the output is strictly ascending. -/
theorem selector_matches_spec (lf : LogFilters) (hb : BucketBounds lf)
    (words : List String) :
    get_filter_indexes_with_min_req_matches lf words =
      some (specCandidates lf words) ∧
    (specCandidates lf words).Pairwise (· < ·) :=
  ⟨selector_eq_spec lf hb words, specCandidates_pairwise lf words⟩

theorem selector_matches_spec_witness :
    BucketBounds LogFilters.new ∧
      (get_filter_indexes_with_min_req_matches LogFilters.new ["a"] =
        some (specCandidates LogFilters.new ["a"]) ∧
      (specCandidates LogFilters.new ["a"]).Pairwise (· < ·)) :=
  ⟨BucketBounds_new, selector_matches_spec LogFilters.new BucketBounds_new ["a"]⟩

/-- C1: `find_best_matching_filter_index` returns the sentinel `-1`
immediately when the store or the word sequence is empty; otherwise, on a
well-formed store, it returns the least-id candidate attaining the maximal
`count_consequent_matches` score exactly when there is a candidate and the
maximal score reaches `words.len() − max_allowed_new_alternatives` (signed),
and returns `-1` otherwise — so boundary inputs flip the decision. -/
theorem find_best_acceptance (lf : LogFilters) (hb : BucketBounds lf)
    (hinv : ReverseIndexInv lf) (hne : NoEmptyAlternative lf)
    (words : List String) :
    ((lf.filters = [] ∨ words = []) →
      find_best_matching_filter_index lf words = some (-1)) ∧
    (¬(lf.filters = [] ∨ words = []) →
      ((specCandidates lf words ≠ [] ∧
        (words.length : Int) - (lf.max_allowed_new_alternatives : Int) ≤
          (specMaxScore lf words : Int)) →
        ∃ t ∈ specCandidates lf words,
          count_consequent_matches lf words t = specMaxScore lf words ∧
          (∀ u ∈ specCandidates lf words,
            count_consequent_matches lf words u = specMaxScore lf words →
              t ≤ u) ∧
          find_best_matching_filter_index lf words = some (t : Int)) ∧
      (¬(specCandidates lf words ≠ [] ∧
        (words.length : Int) - (lf.max_allowed_new_alternatives : Int) ≤
          (specMaxScore lf words : Int)) →
        find_best_matching_filter_index lf words = some (-1))) := by
  have hscore_eq : ∀ t, count_consequent_matches lf words t =
      specConsequentMatches lf words t :=
    fun t => count_consequent_matches_eq_spec lf hinv hne words t
  have hmax_eq : (fbGo lf words (specCandidates lf words) (-1) 0 []).2.1 =
      specMaxScore lf words := by
    rw [fbGo_maxc]
    unfold specMaxScore
    rw [List.foldl_map]
    simp only [hscore_eq]
  refine ⟨?_, ?_⟩
  · intro h
    unfold find_best_matching_filter_index
    rw [if_pos h]
  · intro hnot
    have hopen : find_best_matching_filter_index lf words =
        (if ((fbGo lf words (specCandidates lf words) (-1) 0 []).2.1 : Int) ≥
            (words.length : Int) - (lf.max_allowed_new_alternatives : Int) then
          if (fbGo lf words (specCandidates lf words) (-1) 0 []).2.2.length > 1 ∧
              ¬(∀ t ∈ (fbGo lf words (specCandidates lf words) (-1) 0 []).2.2,
                t < lf.filters.length) then none
          else some (fbGo lf words (specCandidates lf words) (-1) 0 []).1
        else some (-1)) := by
      unfold find_best_matching_filter_index
      rw [if_neg hnot, selector_eq_spec lf hb words]
    have hties : ¬((fbGo lf words (specCandidates lf words) (-1) 0 []).2.2.length > 1 ∧
        ¬(∀ t ∈ (fbGo lf words (specCandidates lf words) (-1) 0 []).2.2,
          t < lf.filters.length)) := by
      rintro ⟨-, hcon⟩
      apply hcon
      intro u hu
      rcases fbGo_ties_mem lf words (specCandidates lf words) (-1) 0 [] u hu
        with h1 | h1
      · cases h1
      · obtain ⟨huL, -⟩ := (mem_specCandidates lf words u).mp h1
        exact sorted_concat_bounded lf hb words u huL
    refine ⟨?_, ?_⟩
    · rintro ⟨hcands, haccept⟩
      have hM1 : 1 ≤ specMaxScore lf words := accept_max_pos lf hinv words hcands haccept
      obtain ⟨t0, ht0, ht0s⟩ :
          ∃ t ∈ specCandidates lf words, 0 < count_consequent_matches lf words t := by
        rcases foldl_max_exists (count_consequent_matches lf words)
          (specCandidates lf words) 0 with h | ⟨t, ht, he⟩
        · exfalso
          have : (fbGo lf words (specCandidates lf words) (-1) 0 []).2.1 = 0 := by
            rw [fbGo_maxc]
            exact h
          omega
        · refine ⟨t, ht, ?_⟩
          have : (fbGo lf words (specCandidates lf words) (-1) 0 []).2.1 =
              count_consequent_matches lf words t := by
            rw [fbGo_maxc]
            exact he
          omega
      obtain ⟨t, htc, hteq, htscore, htmin⟩ := fbGo_best_first lf words
        (specCandidates lf words) (specCandidates_pairwise lf words)
        (-1) 0 [] ⟨t0, ht0, ht0s⟩
      refine ⟨t, htc, by rw [htscore, hmax_eq], ?_, ?_⟩
      · intro u hu hus
        exact htmin u hu (by rw [hus, hmax_eq])
      · rw [hopen, if_pos (by rw [hmax_eq]; exact haccept), if_neg hties, hteq]
    · intro hnacc
      by_cases hcond : ((fbGo lf words (specCandidates lf words) (-1) 0 []).2.1 : Int) ≥
          (words.length : Int) - (lf.max_allowed_new_alternatives : Int)
      · have hcands : specCandidates lf words = [] := by
          by_contra hc
          exact hnacc ⟨hc, by rw [← hmax_eq]; exact hcond⟩
        rw [hopen, if_pos hcond, if_neg hties]
        rw [hcands]
        rfl
      · rw [hopen, if_neg hcond]

theorem find_best_acceptance_witness :
    BucketBounds LogFilters.new ∧ ReverseIndexInv LogFilters.new ∧
      NoEmptyAlternative LogFilters.new ∧
      ((LogFilters.new.filters = [] ∨ (["a"] : List String) = []) →
        find_best_matching_filter_index LogFilters.new ["a"] = some (-1)) :=
  ⟨BucketBounds_new, ReverseIndexInv_new, NoEmptyAlternative_new,
    (find_best_acceptance LogFilters.new BucketBounds_new ReverseIndexInv_new
      NoEmptyAlternative_new ["a"]).1⟩

/-- C9: on a well-formed store (every reverse-index bucket names only
existing template ids), `learn_line` and `is_line_known` never fail on any
input line: every indexing, conversion and panic branch they can reach is
avoided. -/
theorem learn_and_is_known_never_fail (lf : LogFilters) (hb : BucketBounds lf)
    (log_line : String) :
    (learn_line lf log_line).isSome ∧ (is_line_known lf log_line).isSome :=
  ⟨learn_line_some lf hb log_line, is_line_known_some lf hb log_line⟩

theorem learn_and_is_known_never_fail_witness :
    BucketBounds LogFilters.new ∧
      (learn_line LogFilters.new "a b").isSome ∧
      (is_line_known LogFilters.new "a b").isSome :=
  ⟨BucketBounds_new, learn_and_is_known_never_fail LogFilters.new BucketBounds_new "a b"⟩

/-- C5 counterexample: learning the same line twice is NOT always the same as
learning it once. From the store holding the single template
`[b],[b],[b]` (reverse index `b ↦ [0]`, two allowed new alternatives), the
line `"b a"` merges once to `[b],[b],[b],[a,.]`, but the second learn aligns
differently and adds optional markers, yielding `[b],[b,.],[b,.],[a,.]`. -/
theorem c5_idempotence_refuted :
    ¬ ((learn_line (⟨[[["b"], ["b"], ["b"]]], [("b", [0])], 2, ".", false, 0⟩ :
          LogFilters) "b a").bind (fun s => learn_line s "b a") =
        learn_line (⟨[[["b"], ["b"], ["b"]]], [("b", [0])], 2, ".", false, 0⟩ :
          LogFilters) "b a") := by
  decide

/-- C5 amended: from a fresh store (no templates and an empty reverse index,
any configuration), learning a line twice produces exactly the same store —
same templates, columns and alternatives — as learning it once, and when the
line has at least one surviving token, `is_line_known` returns true after one
learn. -/
theorem learn_idempotent_from_empty (lf : LogFilters) (hfil : lf.filters = [])
    (hhash : lf.words_hash = []) (line : String) :
    (learn_line lf line).bind (fun s => learn_line s line) =
      learn_line lf line ∧
    (line_to_words lf line ≠ [] →
      (learn_line lf line).bind (fun s => is_line_known s line) = some true) := by
  have honce := learn_line_fresh lf line hfil
  by_cases hws : line_to_words lf line = []
  · have hadd : add_filter lf (line_to_words lf line) = lf := by
      unfold add_filter
      rw [hws]
      simp
    rw [honce, hadd]
    refine ⟨?_, fun hcon => absurd hws hcon⟩
    simp only [Option.some_bind]
    rw [honce, hadd]
  · obtain ⟨hsec1, hsec2⟩ := learn_line_second lf line hfil hhash hws
    rw [honce]
    simp only [Option.some_bind]
    exact ⟨hsec1, fun _ => hsec2⟩

theorem learn_idempotent_from_empty_witness :
    LogFilters.new.filters = [] ∧ LogFilters.new.words_hash = [] ∧
      ((learn_line LogFilters.new "a b c").bind
          (fun s => learn_line s "a b c") = learn_line LogFilters.new "a b c" ∧
        (line_to_words LogFilters.new "a b c" ≠ [] →
          (learn_line LogFilters.new "a b c").bind
            (fun s => is_line_known s "a b c") = some true)) :=
  ⟨rfl, rfl, learn_idempotent_from_empty LogFilters.new rfl rfl "a b c"⟩

/-- C4 counterexample: learning the three session lines from an empty store
with ignore-numeric, skip-2 and one allowed new alternative does NOT produce
the five-column template `[host],[systemd-logind],[Removed],[session],
[c524,c525,c526]` claimed: the tokenizer drops the numeric tokens before
counting skipped columns, so `Sep` and `host` are the two skipped tokens and
the `host` column never exists. -/
theorem c4_five_column_template_refuted :
    ¬ ((((learn_line { LogFilters.new with max_allowed_new_alternatives := 1 }
          "Sep 26 09:13:15 host systemd-logind[572]: Removed session c524.").bind
        (fun s => learn_line s
          "Sep 27 19:27:53 host systemd-logind[572]: Removed session c525.")).bind
        (fun s => learn_line s
          "Sep 28 13:41:26 host systemd-logind[572]: Removed session c526.")).map
        LogFilters.filters =
      some [[["host"], ["systemd-logind"], ["Removed"], ["session"],
        ["c524", "c525", "c526"]]]) := by
  decide

/-- C4 amended: the same three-line scenario produces exactly one template,
equal to `[systemd-logind],[Removed],[session],[c524,c525,c526]` — the
numeric tokens are removed before the first-two-columns skip, so the skip
consumes `Sep` and `host`. -/
theorem c4_four_column_template :
    (((learn_line { LogFilters.new with max_allowed_new_alternatives := 1 }
          "Sep 26 09:13:15 host systemd-logind[572]: Removed session c524.").bind
        (fun s => learn_line s
          "Sep 27 19:27:53 host systemd-logind[572]: Removed session c525.")).bind
        (fun s => learn_line s
          "Sep 28 13:41:26 host systemd-logind[572]: Removed session c526.")).map
        LogFilters.filters =
      some [[["systemd-logind"], ["Removed"], ["session"],
        ["c524", "c525", "c526"]]] := by
  decide

/-- C7: the public operations preserve the reverse-index containment
invariant. `learn_line` maps a store satisfying `ReverseIndexInv` (bucket
membership of a template id for a word is equivalent to that word appearing
as an alternative in some column of that template, and the optional marker
`denote_optional` — here the program's fixed "." — has an empty bucket, so
it is never indexed) to a store satisfying the same invariant, with the
marker unchanged. `is_line_known` takes `&self` in the source (an immutable
borrow) and in the embedding is a pure function of the store, so it cannot
alter the reverse index at all. -/
theorem learn_preserves_reverse_index (lf : LogFilters)
    (hinv : ReverseIndexInv lf) (hdot : lf.denote_optional = ".")
    (line : String) (lf' : LogFilters)
    (h : learn_line lf line = some lf') :
    ReverseIndexInv lf' ∧ lf'.denote_optional = lf.denote_optional :=
  learn_line_preserves_inv lf line lf' hinv (dot_notin_tokens lf line hdot) h

theorem learn_preserves_reverse_index_witness :
    ReverseIndexInv LogFilters.new ∧ LogFilters.new.denote_optional = "." ∧
      learn_line LogFilters.new "a b c" =
        some (⟨[[["c"]]], [("c", [0])], 0, ".", true, 2⟩ : LogFilters) ∧
      (ReverseIndexInv (⟨[[["c"]]], [("c", [0])], 0, ".", true, 2⟩ : LogFilters) ∧
        (⟨[[["c"]]], [("c", [0])], 0, ".", true, 2⟩ :
          LogFilters).denote_optional = LogFilters.new.denote_optional) :=
  ⟨ReverseIndexInv_new, rfl, by decide,
    learn_preserves_reverse_index LogFilters.new ReverseIndexInv_new rfl
      "a b c" _ (by decide)⟩

end Logmap
